import Mathlib

/-!
Verification of the text statistics utility (`text_analyzer.py`).

Python strings are modelled as `List Char`.  The regex character class `\w`
(word characters) is modelled by ASCII letters, digits and underscore; the
whitespace class `\s` by `Char.isWhitespace`.  All definitions are direct
shallow embeddings of the corresponding Python code, except the ones whose
doc comments say they follow the specification text (they are used as the
independent side of refinement statements).
-/

/-- The apostrophe character (U+0027). -/
def apoChar : Char := Char.ofNat 39

/-- The double quote character (U+0022). -/
def dquoteChar : Char := Char.ofNat 34

/-- Word characters: the regex class `\w` (letters, digits, underscore). -/
def isWordChar (c : Char) : Bool := c.isAlphanum || c = '_'

/-- Characters matched by the regex character class `[\w'-]` in
`re.findall(r"\b[\w'-]+\b", text)`: word characters, apostrophe, hyphen. -/
def isTokenChar (c : Char) : Bool := isWordChar c || c = apoChar || c = '-'

/-- Trim a run of token characters to the segment between its first and its
last word character (the part of a maximal `[\w'-]` run that the regex
`\b[\w'-]+\b` actually matches, because `\b` requires a word character on the
inside of each end of the match). -/
def trimRun (r : List Char) : List Char :=
  ((r.dropWhile fun c => !isWordChar c).reverse.dropWhile
    fun c => !isWordChar c).reverse

/-- Matches contributed by one maximal run `r` of token characters: one
match (the trimmed run) when `r` contains a word character, none otherwise
(with no word character there is no word boundary around the run). -/
def flushRun (r : List Char) : List (List Char) :=
  if r.any isWordChar then [trimRun r] else []

/-- Scanner for `re.findall(r"\b[\w'-]+\b", text)`: `acc` holds the token
characters of the current run, in reverse order. -/
def extractAux : List Char → List Char → List (List Char)
  | [], acc => flushRun acc.reverse
  | c :: cs, acc =>
    if isTokenChar c then extractAux cs (c :: acc)
    else flushRun acc.reverse ++ extractAux cs []

/-- Embedding of `re.findall(r"\b[\w'-]+\b", text)` (line 19 of the source).
The scanner walks over the maximal runs of `[\w'-]` characters; a run
containing at least one word character yields exactly one match, namely the
run trimmed to its first through last word character (the scan for a start
position satisfying the leading `\b`, and the backtracking of the greedy
`[\w'-]+` against the trailing `\b`, drop the apostrophe/hyphen fringes of
the run); a run with no word character yields no match because no position
touching it is a word boundary. -/
def extractWords (s : List Char) : List (List Char) := extractAux s []

/-- Sentence terminators of the regex `[.!?]+` (line 26 of the source). -/
def isSentenceTerm (c : Char) : Bool := c = '.' || c = '!' || c = '?'

/-- Scanner for `re.split(r'[.!?]+', text)`: `acc` holds the current segment
in reverse order; `inTerm` records that the previously seen character was a
sentence terminator (so that further terminators extend the same split
point instead of producing empty segments). -/
def splitTermAux : Bool → List Char → List Char → List (List Char)
  | _, [], acc => [acc.reverse]
  | inTerm, c :: cs, acc =>
    if isSentenceTerm c then
      if inTerm then splitTermAux true cs acc
      else acc.reverse :: splitTermAux true cs []
    else splitTermAux false cs (c :: acc)

/-- Embedding of `re.split(r'[.!?]+', text)`: split the input at each maximal
consecutive run of sentence terminators. -/
def splitTerm (s : List Char) : List (List Char) := splitTermAux false s []

/-- Quote characters stripped by `w.strip("'\"")` (line 29 of the source). -/
def isQuoteChar (c : Char) : Bool := c = apoChar || c = dquoteChar

/-- Embedding of `w.strip("'\"")`: remove leading and trailing quote
characters. -/
def stripQuotes (w : List Char) : List Char :=
  ((w.dropWhile isQuoteChar).reverse.dropWhile isQuoteChar).reverse

/-- Embedding of `w.lower().strip("'\"")` applied to every extracted word
before tallying (line 29 of the source). -/
def processWord (w : List Char) : List Char := stripQuotes (w.map Char.toLower)

/-- Fuelled recursion computing `collections.Counter(l).items()`: the first
element of `l` is emitted with its total count, then the remaining distinct
elements are processed in order; the fuel only serves structural
recursion and any fuel of at least `l.length` gives the same result. -/
def counterItemsGo {α : Type} [DecidableEq α] : Nat → List α → List (α × Nat)
  | _, [] => []
  | 0, _ :: _ => []
  | f + 1, w :: l =>
    (w, 1 + l.count w) :: counterItemsGo f (l.filter fun x => x ≠ w)

/-- Embedding of `collections.Counter(iterable).items()`: the distinct
elements in order of first occurrence, each with its total number of
occurrences (Python dicts, hence `Counter`, preserve insertion order). -/
def counterItems {α : Type} [DecidableEq α] (l : List α) : List (α × Nat) :=
  counterItemsGo l.length l

/-- Comparator under which `Counter.most_common` sorts: descending count.
`most_common(n)` is specified as `sorted(items, key=count, reverse=True)[:n]`
with a stable sort. -/
def countGe {α : Type} (p q : α × Nat) : Bool := decide (q.2 ≤ p.2)

/-- Embedding of `Counter(l).most_common(5)`: stable sort of the counter
items by descending count, then the first five. -/
def mostCommon (l : List (List Char)) : List (List Char × Nat) :=
  ((counterItems l).mergeSort countGe).take 5

/-- Embedding of `re.sub(r"\s+", "", text)`: removing every (maximal run of)
whitespace character(s) leaves exactly the non-whitespace characters. -/
def removeSpaces (s : List Char) : List Char := s.filter fun c => !c.isWhitespace

/-- Embedding of `[s for s in re.split(r'[.!?]+', text) if s.strip()]`:
the split segments that contain a non-whitespace character (`s.strip()` is
truthy exactly when `s` is not all whitespace). -/
def sentenceSegments (s : List Char) : List (List Char) :=
  (splitTerm s).filter fun seg => !seg.all Char.isWhitespace

/-- The statistics record returned by `analyze_text` (the Python dict with
its five keys). -/
structure TextStatistics where
  words : Nat
  characters : Nat
  characters_no_spaces : Nat
  sentences : Nat
  most_common_words : List (List Char × Nat)
deriving DecidableEq

/-- Embedding of `analyze_text` (lines 9-37 of the source). -/
def analyze_text (s : List Char) : TextStatistics :=
  { words := (extractWords s).length
    characters := s.length
    characters_no_spaces := (removeSpaces s).length
    sentences := (sentenceSegments s).length
    most_common_words := mostCommon ((extractWords s).map processWord) }

/-- Decimal rendering of a number, as the f-strings of the report produce. -/
def natChars (n : Nat) : List Char := (Nat.repr n).data

/-- Embedding of `format_report` (lines 40-49 of the source): four fixed
lines, then the top-words line when `most_common_words` is truthy (i.e.
non-empty), joined with newlines. -/
def format_report (stats : TextStatistics) : List Char :=
  List.intercalate ['\n']
    (["Words: ".data ++ natChars stats.words,
      "Characters (including spaces): ".data ++ natChars stats.characters,
      "Characters (no spaces): ".data ++ natChars stats.characters_no_spaces,
      "Sentences: ".data ++ natChars stats.sentences] ++
      (if stats.most_common_words = [] then []
       else
        ["Top words: ".data ++
          List.intercalate ", ".data
            (stats.most_common_words.map fun p =>
              p.1 ++ "(".data ++ natChars p.2 ++ ")".data)]))

/-! Specification-side definitions.  These follow the wording of the
specification document, independently of the code above; refinement theorems
compare the two. -/

/-- Whether position `i` of `s` holds a word character (out of range counts
as a non-word position, as at the ends of a string for `\b`). -/
def wordAt (s : List Char) (i : Nat) : Bool :=
  match s[i]? with
  | some c => isWordChar c
  | none => false

/-- Whether position `i` of `s` holds a token character. -/
def tokenAt (s : List Char) (i : Nat) : Bool :=
  match s[i]? with
  | some c => isTokenChar c
  | none => false

/-- Word boundary in the sense of the glossary: a transition between a word
character and a non-word character, i.e. exactly one of the positions
`i - 1`, `i` holds a word character. -/
def isBoundary (s : List Char) (i : Nat) : Bool :=
  (match i with | 0 => false | k + 1 => wordAt s k) != wordAt s i

/-- Positions `i ≤ k < j` of `s` all hold token characters. -/
def allToken (s : List Char) (i j : Nat) : Bool :=
  (List.range' i (j - i)).all fun k => tokenAt s k

/-- Span `[i, j)` of `s` is a non-empty run of word characters, apostrophes
and hyphens that is bounded by word boundaries. -/
def isMatchSpan (s : List Char) (i j : Nat) : Bool :=
  decide (i < j) && decide (j ≤ s.length) && allToken s i j &&
    isBoundary s i && isBoundary s j

/-- Span `[i, j)` is a maximal such run: no other boundary-bounded run
contains it. -/
def isMaxMatchSpan (s : List Char) (i j : Nat) : Bool :=
  isMatchSpan s i j &&
  ((List.range (s.length + 1)).all fun a =>
    (List.range (s.length + 1)).all fun b =>
      !(isMatchSpan s a b && decide (a ≤ i) && decide (j ≤ b)) ||
        (decide (a = i) && decide (b = j)))

/-- The words starting at position `i`: the slice of each maximal
boundary-bounded token run beginning there (at most one exists). -/
def specInner (s : List Char) (i : Nat) : List (List Char) :=
  (List.range (s.length + 1)).filterMap fun j =>
    if isMaxMatchSpan s i j then some ((s.drop i).take (j - i)) else none

/-- The word sequence as the specification describes it: the maximal runs of
word characters, apostrophes and hyphens bounded by word boundaries, in the
order they appear in the text. -/
def specWords (s : List Char) : List (List Char) :=
  (List.range (s.length + 1)).flatMap fun i => specInner s i

/-- Number of distinct lowercased, quote-stripped words. -/
def specDistinctCount (s : List Char) : Nat :=
  ((extractWords s).map processWord).toFinset.card

/-- Index of the first occurrence of `x` in a list (length of the list when
`x` does not occur). -/
def firstIdx {α : Type} [DecidableEq α] (x : α) : List α → Nat
  | [] => 0
  | y :: t => if y = x then 0 else firstIdx x t + 1

/-- Position of the first word character of a token run (the start of the
boundary-bounded match inside the run). -/
def runFw (run : List Char) : Nat :=
  (run.takeWhile fun c => !isWordChar c).length

/-- Position just after the last word character of a token run (the end of
the boundary-bounded match inside the run). -/
def runJ0 (run : List Char) : Nat := runFw run + (trimRun run).length

/-- Characters of a token run after its last word character. -/
def runTail (run : List Char) : List Char :=
  ((run.dropWhile fun c => !isWordChar c).reverse.takeWhile
    fun c => !isWordChar c).reverse

/-! Basic character class facts. -/

theorem isWordChar_isTokenChar {c : Char} (h : isWordChar c = true) :
    isTokenChar c = true := by
  simp [isTokenChar, h]

theorem isWordChar_eq_false {c : Char} (h : isTokenChar c = false) :
    isWordChar c = false := by
  unfold isTokenChar at h
  simp only [Bool.or_eq_false_iff] at h
  exact h.1.1

theorem isTokenChar_of_whitespace {c : Char} (h : c.isWhitespace = true) :
    isTokenChar c = false := by
  unfold Char.isWhitespace at h
  simp only [Bool.or_eq_true, decide_eq_true_eq] at h
  rcases h with ((h | h) | h) | h <;> subst h <;> decide

/-! Facts about the word scanner, used for degenerate inputs. -/

theorem extractAux_eq_nil : ∀ s : List Char,
    (∀ c ∈ s, isTokenChar c = false) → extractAux s [] = []
  | [], _ => rfl
  | c :: cs, h => by
    have hc : isTokenChar c = false := h c (List.mem_cons_self c cs)
    have ih := extractAux_eq_nil cs fun d hd => h d (List.mem_cons_of_mem c hd)
    simp [extractAux, hc, flushRun, ih]

theorem extractWords_of_whitespace {s : List Char}
    (h : s.all Char.isWhitespace = true) : extractWords s = [] := by
  apply extractAux_eq_nil
  intro c hc
  exact isTokenChar_of_whitespace (List.all_eq_true.mp h c hc)

/-! Characters of the segments produced by the sentence splitter all come
from the accumulator or the remaining input. -/

theorem mem_splitTermAux : ∀ (s : List Char) (b : Bool) (acc seg : List Char),
    seg ∈ splitTermAux b s acc → ∀ c ∈ seg, c ∈ acc ∨ c ∈ s
  | [], b, acc, seg, hseg, c, hc => by
    simp only [splitTermAux, List.mem_singleton] at hseg
    subst hseg
    exact Or.inl (List.mem_reverse.mp hc)
  | c0 :: cs, b, acc, seg, hseg, c, hc => by
    by_cases ht : isSentenceTerm c0 = true
    · cases b with
      | true =>
        simp only [splitTermAux, ht, if_true] at hseg
        rcases mem_splitTermAux cs true acc seg hseg c hc with h | h
        · exact Or.inl h
        · exact Or.inr (List.mem_cons_of_mem c0 h)
      | false =>
        simp only [splitTermAux, ht, if_true] at hseg
        rcases List.mem_cons.mp hseg with h | h
        · subst h
          exact Or.inl (List.mem_reverse.mp hc)
        · rcases mem_splitTermAux cs true [] seg h c hc with h2 | h2
          · simp at h2
          · exact Or.inr (List.mem_cons_of_mem c0 h2)
    · rw [Bool.not_eq_true] at ht
      simp only [splitTermAux, ht, Bool.false_eq_true, if_false] at hseg
      rcases mem_splitTermAux cs false (c0 :: acc) seg hseg c hc with h | h
      · rcases List.mem_cons.mp h with h2 | h2
        · subst h2
          exact Or.inr (List.mem_cons_self c cs)
        · exact Or.inl h2
      · exact Or.inr (List.mem_cons_of_mem c0 h)

theorem sentenceSegments_of_whitespace {s : List Char}
    (h : s.all Char.isWhitespace = true) : sentenceSegments s = [] := by
  unfold sentenceSegments splitTerm
  rw [List.filter_eq_nil_iff]
  intro seg hseg
  simp only [Bool.not_eq_true', Bool.not_eq_true, Bool.not_eq_false]
  rw [List.all_eq_true]
  intro c hc
  rcases mem_splitTermAux s false [] seg hseg c hc with h2 | h2
  · simp at h2
  · exact List.all_eq_true.mp h c h2

theorem removeSpaces_of_whitespace {s : List Char}
    (h : s.all Char.isWhitespace = true) : removeSpaces s = [] := by
  unfold removeSpaces
  rw [List.filter_eq_nil_iff]
  intro c hc
  simp [List.all_eq_true.mp h c hc]

/-- Concrete evaluation of the analyzer on the tie-break test vector of the
specification. -/
theorem analyze_baab : analyze_text "b a a b".data = {
    words := 4, characters := 7, characters_no_spaces := 4, sentences := 1,
    most_common_words := [(['b'], 2), (['a'], 2)] } := by
  have h : counterItems ((extractWords "b a a b".data).map processWord) =
      [(['b'], 2), (['a'], 2)] := by decide
  have h2 : mostCommon ((extractWords "b a a b".data).map processWord) =
      [(['b'], 2), (['a'], 2)] := by
    rw [mostCommon, h]
    simp [List.mergeSort, List.merge, countGe]
  simp only [analyze_text, h2]
  decide

/-! Facts about the counter: any sufficient fuel computes the same items,
every item records the total count of its key, keys are exactly the distinct
elements, listed in order of first occurrence. -/

theorem counterItemsGo_congr {α : Type} [DecidableEq α] (f₁ : Nat) :
    ∀ (f₂ : Nat) (l : List α), l.length ≤ f₁ → l.length ≤ f₂ →
      counterItemsGo f₁ l = counterItemsGo f₂ l := by
  induction f₁ with
  | zero =>
    intro f₂ l h₁ _
    have hl : l = [] := List.length_eq_zero.mp (Nat.le_zero.mp h₁)
    subst hl
    cases f₂ <;> rfl
  | succ g ih =>
    intro f₂ l h₁ h₂
    cases l with
    | nil => cases f₂ <;> rfl
    | cons w t =>
      cases f₂ with
      | zero => simp at h₂
      | succ g₂ =>
        simp only [counterItemsGo]
        congr 1
        have hta : t.length ≤ g := by
          simp only [List.length_cons] at h₁
          omega
        have htb : t.length ≤ g₂ := by
          simp only [List.length_cons] at h₂
          omega
        exact ih g₂ _ (le_trans (List.length_filter_le _ t) hta)
          (le_trans (List.length_filter_le _ t) htb)

theorem counterItems_nil {α : Type} [DecidableEq α] :
    counterItems ([] : List α) = [] := rfl

theorem counterItems_cons {α : Type} [DecidableEq α] (w : α) (l : List α) :
    counterItems (w :: l) =
      (w, 1 + l.count w) :: counterItems (l.filter fun x => x ≠ w) := by
  unfold counterItems
  simp only [List.length_cons, counterItemsGo]
  congr 1
  exact counterItemsGo_congr l.length _ _ (List.length_filter_le _ l) le_rfl

theorem counterItems_mem {α : Type} [DecidableEq α] :
    ∀ (l : List α) (p : α × Nat), p ∈ counterItems l →
      p.1 ∈ l ∧ p.2 = l.count p.1
  | [], p, hp => by simp [counterItems_nil] at hp
  | w :: t, p, hp => by
    rw [counterItems_cons] at hp
    rcases List.mem_cons.mp hp with h | h
    · subst h
      refine ⟨List.mem_cons_self w t, ?_⟩
      simp [List.count_cons_self, Nat.add_comm]
    · obtain ⟨hmem, hcount⟩ := counterItems_mem (t.filter fun x => x ≠ w) p h
      have hpt : p.1 ∈ t := (List.mem_filter.mp hmem).1
      have hne : p.1 ≠ w := by
        have h2 := (List.mem_filter.mp hmem).2
        simpa using h2
      refine ⟨List.mem_cons_of_mem w hpt, ?_⟩
      rw [hcount, List.count_filter (by simpa using hne),
        List.count_cons_of_ne hne]
termination_by l => l.length
decreasing_by
  exact Nat.lt_succ_of_le (List.length_filter_le _ _)

theorem counterItems_mem_keys {α : Type} [DecidableEq α] :
    ∀ (l : List α) (x : α), x ∈ l → ∃ c, (x, c) ∈ counterItems l
  | [], x, hx => absurd hx (by simp)
  | w :: t, x, hx => by
    rw [counterItems_cons]
    by_cases hxw : x = w
    · subst hxw
      exact ⟨1 + t.count x, List.mem_cons_self _ _⟩
    · have hxt : x ∈ t := by
        rcases List.mem_cons.mp hx with h | h
        · exact absurd h hxw
        · exact h
      have hxf : x ∈ t.filter fun y => y ≠ w :=
        List.mem_filter.mpr ⟨hxt, by simpa using hxw⟩
      obtain ⟨c, hc⟩ := counterItems_mem_keys (t.filter fun y => y ≠ w) x hxf
      exact ⟨c, List.mem_cons_of_mem _ hc⟩
termination_by l => l.length
decreasing_by
  exact Nat.lt_succ_of_le (List.length_filter_le _ _)

theorem firstIdx_cons_self {α : Type} [DecidableEq α] (x : α) (t : List α) :
    firstIdx x (x :: t) = 0 := by
  simp [firstIdx]

theorem firstIdx_cons_ne {α : Type} [DecidableEq α] {y x : α} (t : List α)
    (h : y ≠ x) : firstIdx x (y :: t) = firstIdx x t + 1 := by
  simp [firstIdx, h]

theorem firstIdx_inj {α : Type} [DecidableEq α] :
    ∀ {l : List α} {x y : α}, x ∈ l → y ∈ l →
      firstIdx x l = firstIdx y l → x = y := by
  intro l
  induction l with
  | nil =>
    intro x y hx
    simp at hx
  | cons c t ih =>
    intro x y hx hy he
    by_cases hcx : c = x
    · by_cases hcy : c = y
      · rw [← hcx, ← hcy]
      · subst hcx
        rw [firstIdx_cons_self, firstIdx_cons_ne t hcy] at he
        omega
    · by_cases hcy : c = y
      · subst hcy
        rw [firstIdx_cons_self, firstIdx_cons_ne t hcx] at he
        omega
      · have hxt : x ∈ t := by
          rcases List.mem_cons.mp hx with h | h
          · exact absurd h.symm hcx
          · exact h
        have hyt : y ∈ t := by
          rcases List.mem_cons.mp hy with h | h
          · exact absurd h.symm hcy
          · exact h
        rw [firstIdx_cons_ne t hcx, firstIdx_cons_ne t hcy] at he
        exact ih hxt hyt (by omega)

/-- In a duplicate-free list the first-occurrence index of the element at
position `i` is `i`. -/
theorem firstIdx_get_nodup {α : Type} [DecidableEq α] :
    ∀ (l : List α), l.Nodup → ∀ (i : Nat) (h : i < l.length),
      firstIdx (l.get ⟨i, h⟩) l = i := by
  intro l
  induction l with
  | nil =>
    intro _ i h
    simp at h
  | cons c t ih =>
    intro hn i h
    cases i with
    | zero => exact firstIdx_cons_self c t
    | succ i2 =>
      have hmem : t.get ⟨i2, by simpa using h⟩ ∈ t := t.get_mem _ _
      have hne : c ≠ t.get ⟨i2, by simpa using h⟩ := by
        intro he
        exact (List.nodup_cons.mp hn).1 (he ▸ hmem)
      rw [show (c :: t).get ⟨i2 + 1, h⟩ = t.get ⟨i2, by simpa using h⟩ from
        rfl]
      rw [firstIdx_cons_ne t hne, ih (List.nodup_cons.mp hn).2 i2 _]

/-- Relative order of two members of a filtered list transfers to the
original list. -/
theorem firstIdx_filter_lt {α : Type} [DecidableEq α] (q : α → Bool) :
    ∀ (l : List α) (a b : α), a ∈ l.filter q → b ∈ l.filter q →
      firstIdx a (l.filter q) < firstIdx b (l.filter q) →
      firstIdx a l < firstIdx b l := by
  intro l
  induction l with
  | nil =>
    intro a b ha
    simp at ha
  | cons c t ih =>
    intro a b ha hb hlt
    by_cases hqc : q c = true
    · rw [List.filter_cons_of_pos hqc] at ha hb hlt
      by_cases hca : c = a
      · subst hca
        have hba : c ≠ b := by
          intro hba
          rw [hba] at hlt
          omega
        rw [firstIdx_cons_self, firstIdx_cons_ne t hba]
        omega
      · by_cases hcb : c = b
        · subst hcb
          rw [firstIdx_cons_self c, firstIdx_cons_ne _ hca] at hlt
          omega
        · have ha2 : a ∈ t.filter q := by
            rcases List.mem_cons.mp ha with h | h
            · exact absurd h.symm hca
            · exact h
          have hb2 : b ∈ t.filter q := by
            rcases List.mem_cons.mp hb with h | h
            · exact absurd h.symm hcb
            · exact h
          rw [firstIdx_cons_ne _ hca, firstIdx_cons_ne _ hcb] at hlt
          rw [firstIdx_cons_ne t hca, firstIdx_cons_ne t hcb]
          exact Nat.succ_lt_succ (ih a b ha2 hb2 (Nat.lt_of_succ_lt_succ hlt))
    · rw [List.filter_cons_of_neg (by simpa using hqc)] at ha hb hlt
      have hca : c ≠ a := by
        intro h
        subst h
        exact hqc ((List.mem_filter.mp ha).2)
      have hcb : c ≠ b := by
        intro h
        subst h
        exact hqc ((List.mem_filter.mp hb).2)
      rw [firstIdx_cons_ne t hca, firstIdx_cons_ne t hcb]
      exact Nat.succ_lt_succ (ih a b ha hb hlt)

/-- Counter items are listed in order of first occurrence of their keys. -/
theorem counterItems_pairwise_firstIdx {α : Type} [DecidableEq α] :
    ∀ l : List α, (counterItems l).Pairwise fun p q =>
      firstIdx p.1 l < firstIdx q.1 l
  | [] => by simp [counterItems_nil]
  | w :: t => by
    rw [counterItems_cons]
    constructor
    · intro q hq
      have hmemf : q.1 ∈ t.filter fun x => x ≠ w :=
        (counterItems_mem _ q hq).1
      have hne : w ≠ q.1 := by
        have h2 : q.1 ≠ w := by simpa using (List.mem_filter.mp hmemf).2
        exact fun h => h2 h.symm
      rw [firstIdx_cons_self, firstIdx_cons_ne t hne]
      omega
    · have ihp := counterItems_pairwise_firstIdx (t.filter fun x => x ≠ w)
      refine ihp.imp_of_mem ?_
      intro p q hp hq hlt
      have hpf : p.1 ∈ t.filter fun x => x ≠ w := (counterItems_mem _ p hp).1
      have hqf : q.1 ∈ t.filter fun x => x ≠ w := (counterItems_mem _ q hq).1
      have hpw : w ≠ p.1 := by
        have h2 : p.1 ≠ w := by simpa using (List.mem_filter.mp hpf).2
        exact fun h => h2 h.symm
      have hqw : w ≠ q.1 := by
        have h2 : q.1 ≠ w := by simpa using (List.mem_filter.mp hqf).2
        exact fun h => h2 h.symm
      have ht : firstIdx p.1 t < firstIdx q.1 t :=
        firstIdx_filter_lt _ t p.1 q.1 hpf hqf hlt
      rw [firstIdx_cons_ne t hpw, firstIdx_cons_ne t hqw]
      exact Nat.succ_lt_succ ht
termination_by l => l.length
decreasing_by
  exact Nat.lt_succ_of_le (List.length_filter_le _ _)

theorem counterItems_nodup {α : Type} [DecidableEq α] (l : List α) :
    (counterItems l).Nodup := by
  have h := counterItems_pairwise_firstIdx l
  exact h.imp fun {p q} hlt heq => by
    rw [heq] at hlt
    omega

theorem counterItems_length {α : Type} [DecidableEq α] :
    ∀ l : List α, (counterItems l).length = l.toFinset.card
  | [] => by simp [counterItems_nil]
  | w :: t => by
    rw [counterItems_cons]
    have ih := counterItems_length (t.filter fun x => x ≠ w)
    simp only [List.length_cons, ih]
    rw [List.toFinset_cons, List.toFinset_filter]
    have herase : (t.toFinset.filter fun x => (decide (x ≠ w))) =
        t.toFinset.erase w := by
      ext y
      simp [Finset.mem_erase, and_comm]
    rw [herase]
    have hw : w ∈ insert w t.toFinset := Finset.mem_insert_self w _
    rw [← Finset.card_erase_add_one hw, Finset.erase_insert_eq_erase]
termination_by l => l.length
decreasing_by
  exact Nat.lt_succ_of_le (List.length_filter_le _ _)

theorem mostCommon_length (l : List (List Char)) :
    (mostCommon l).length = min 5 (counterItems l).length := by
  simp [mostCommon, List.length_take, List.length_mergeSort]

/-! Facts about `Char.toLower` and the quote-stripping normalisation. -/

theorem toNat_ofNat_valid (n : Nat) (h : n < 55296) :
    (Char.ofNat n).toNat = n := by
  rw [Char.ofNat, dif_pos (Or.inl h)]
  simp [Char.ofNatAux, Char.toNat, UInt32.toNat, BitVec.toNat_ofNatLt]

theorem char_ne_of_toNat_ne {c d : Char} (h : c.toNat ≠ d.toNat) : c ≠ d :=
  fun he => h (by rw [he])

theorem toLower_of_upper {c : Char} (h1 : 65 ≤ c.toNat) (h2 : c.toNat ≤ 90) :
    (Char.toLower c).toNat = c.toNat + 32 := by
  rw [Char.toLower, if_pos ⟨h1, h2⟩]
  exact toNat_ofNat_valid _ (by omega)

theorem toLower_of_not_upper {c : Char}
    (h : ¬(65 ≤ c.toNat ∧ c.toNat ≤ 90)) : Char.toLower c = c := by
  rw [Char.toLower, if_neg h]

theorem toLower_idem (c : Char) :
    Char.toLower (Char.toLower c) = Char.toLower c := by
  by_cases h : 65 ≤ c.toNat ∧ c.toNat ≤ 90
  · have hn := toLower_of_upper h.1 h.2
    apply toLower_of_not_upper
    rw [hn]
    omega
  · rw [toLower_of_not_upper h, toLower_of_not_upper h]

theorem isQuoteChar_toLower (c : Char) :
    isQuoteChar (Char.toLower c) = isQuoteChar c := by
  by_cases h : 65 ≤ c.toNat ∧ c.toNat ≤ 90
  · have hn := toLower_of_upper h.1 h.2
    have hapo : apoChar.toNat = 39 := by decide
    have hdq : dquoteChar.toNat = 34 := by decide
    have h1 : isQuoteChar (Char.toLower c) = false := by
      unfold isQuoteChar
      rw [decide_eq_false (char_ne_of_toNat_ne (by omega)),
        decide_eq_false (char_ne_of_toNat_ne (by omega))]
      rfl
    have h2 : isQuoteChar c = false := by
      unfold isQuoteChar
      rw [decide_eq_false (char_ne_of_toNat_ne (by omega)),
        decide_eq_false (char_ne_of_toNat_ne (by omega))]
      rfl
    rw [h1, h2]
  · rw [toLower_of_not_upper h]

theorem dropWhile_head_false {α : Type} {p : α → Bool} {l : List α} {a : α}
    (h : (l.dropWhile p).head? = some a) : p a = false := by
  have hm := List.head?_dropWhile_not p l
  rw [h] at hm
  exact hm

theorem getLast?_dropWhile {α : Type} {p : α → Bool} {l : List α}
    (h : l.dropWhile p ≠ []) : (l.dropWhile p).getLast? = l.getLast? := by
  induction l with
  | nil => simp at h
  | cons a t ih =>
    by_cases hpa : p a = true
    · rw [List.dropWhile_cons, if_pos hpa] at h ⊢
      cases t with
      | nil => simp at h
      | cons b t2 =>
        rw [List.getLast?_cons_cons]
        exact ih h
    · rw [List.dropWhile_cons, if_neg hpa]

theorem dropWhile_eq_self_of_head {α : Type} {p : α → Bool} {l : List α}
    (h : ∀ a, l.head? = some a → p a = false) : l.dropWhile p = l := by
  cases l with
  | nil => rfl
  | cons a t =>
    rw [List.dropWhile_cons, h a rfl]
    rfl

/-- Head of a two-sided trim fails the trimming predicate. -/
theorem trimBoth_head {α : Type} {p : α → Bool} (x : List α) (a : α)
    (h : ((x.dropWhile p).reverse.dropWhile p).reverse.head? = some a) :
    p a = false := by
  rw [List.head?_reverse] at h
  have hne : (x.dropWhile p).reverse.dropWhile p ≠ [] := by
    intro h0
    rw [h0] at h
    simp at h
  rw [getLast?_dropWhile hne, List.getLast?_reverse] at h
  exact dropWhile_head_false h

/-- Last element of a two-sided trim fails the trimming predicate. -/
theorem trimBoth_getLast {α : Type} {p : α → Bool} (x : List α) (z : α)
    (h : ((x.dropWhile p).reverse.dropWhile p).reverse.getLast? = some z) :
    p z = false := by
  rw [List.getLast?_reverse] at h
  exact dropWhile_head_false h

/-- A list whose head and last elements fail `p` is untouched by a two-sided
trim along `p`. -/
theorem trimBoth_eq_self {α : Type} {p : α → Bool} {y : List α}
    (hhead : ∀ a, y.head? = some a → p a = false)
    (hlast : ∀ z, y.getLast? = some z → p z = false) :
    ((y.dropWhile p).reverse.dropWhile p).reverse = y := by
  rw [dropWhile_eq_self_of_head hhead]
  rw [dropWhile_eq_self_of_head fun a ha => hlast a (by
    rw [List.head?_reverse] at ha
    exact ha)]
  exact List.reverse_reverse y

theorem stripQuotes_idem (x : List Char) :
    stripQuotes (stripQuotes x) = stripQuotes x :=
  trimBoth_eq_self (fun a ha => trimBoth_head x a ha)
    (fun z hz => trimBoth_getLast x z hz)

theorem map_toLower_stripQuotes (x : List Char) :
    (stripQuotes x).map Char.toLower = stripQuotes (x.map Char.toLower) := by
  have hcomp : (isQuoteChar ∘ Char.toLower) = isQuoteChar :=
    funext fun c => isQuoteChar_toLower c
  unfold stripQuotes
  rw [List.dropWhile_map, hcomp, ← List.map_reverse, List.dropWhile_map,
    hcomp, ← List.map_reverse]

theorem map_toLower_idem (w : List Char) :
    (w.map Char.toLower).map Char.toLower = w.map Char.toLower := by
  rw [List.map_map]
  exact List.map_congr_left fun a _ => toLower_idem a

theorem processWord_lower_idem (r : List Char) :
    (processWord r).map Char.toLower = processWord r := by
  unfold processWord
  rw [map_toLower_stripQuotes, map_toLower_idem]

theorem processWord_strip_idem (r : List Char) :
    stripQuotes (processWord r) = processWord r :=
  stripQuotes_idem _

/-! Order-theoretic helpers for the stable-sort argument. -/

theorem countGe_trans (a b c : List Char × Nat)
    (hab : countGe a b) (hbc : countGe b c) : countGe a c := by
  simp only [countGe, decide_eq_true_eq] at hab hbc ⊢
  omega

theorem countGe_total (a b : List Char × Nat) : countGe a b || countGe b a := by
  simp only [countGe, Bool.or_eq_true, decide_eq_true_eq]
  omega

/-- Two distinct members of a list form a pair sublist in one order or the
other. -/
theorem pair_sublist_of_mem {α : Type} :
    ∀ {l : List α} {a b : α}, a ∈ l → b ∈ l → a ≠ b →
      List.Sublist [a, b] l ∨ List.Sublist [b, a] l := by
  intro l
  induction l with
  | nil =>
    intro a b ha
    simp at ha
  | cons c t ih =>
    intro a b ha hb hab
    by_cases hac : a = c
    · subst hac
      have hbt : b ∈ t := by
        rcases List.mem_cons.mp hb with h | h
        · exact absurd h.symm hab
        · exact h
      exact Or.inl (List.Sublist.cons₂ a (List.singleton_sublist.mpr hbt))
    · by_cases hbc : b = c
      · subst hbc
        have hat : a ∈ t := by
          rcases List.mem_cons.mp ha with h | h
          · exact absurd h hac
          · exact h
        exact Or.inr (List.Sublist.cons₂ b (List.singleton_sublist.mpr hat))
      · have hat : a ∈ t := by
          rcases List.mem_cons.mp ha with h | h
          · exact absurd h hac
          · exact h
        have hbt : b ∈ t := by
          rcases List.mem_cons.mp hb with h | h
          · exact absurd h hbc
          · exact h
        rcases ih hat hbt hab with h | h
        · exact Or.inl (List.Sublist.cons c h)
        · exact Or.inr (List.Sublist.cons c h)

/-- In a duplicate-free list, a pair sublist fixes the relative order of the
first occurrences. -/
theorem firstIdx_lt_of_pair_sublist {α : Type} [DecidableEq α] :
    ∀ {l : List α} {x y : α}, List.Sublist [x, y] l → l.Nodup →
      firstIdx x l < firstIdx y l := by
  intro l
  induction l with
  | nil =>
    intro x y h
    rw [List.sublist_nil] at h
    cases h
  | cons c t ih =>
    intro x y h hn
    cases h with
    | cons _ h2 =>
      have hx : x ∈ t := h2.subset (by simp)
      have hy : y ∈ t := h2.subset (by simp)
      have hcx : c ≠ x := by
        intro he
        subst he
        exact (List.nodup_cons.mp hn).1 hx
      have hcy : c ≠ y := by
        intro he
        subst he
        exact (List.nodup_cons.mp hn).1 hy
      rw [firstIdx_cons_ne t hcx, firstIdx_cons_ne t hcy]
      exact Nat.succ_lt_succ (ih h2 (List.nodup_cons.mp hn).2)
    | cons₂ _ h2 =>
      have hy : y ∈ t := h2.subset (by simp)
      have hcy : c ≠ y := by
        intro he
        subst he
        exact (List.nodup_cons.mp hn).1 hy
      rw [firstIdx_cons_self, firstIdx_cons_ne t hcy]
      omega

/-! Facts about the decimal rendering used by the report lines. -/

theorem digitChar_ne_newline (m : Nat) : Nat.digitChar m ≠ '\n' := by
  by_cases hm : m < 16
  · interval_cases m <;> decide
  · have h0 : m ≠ 0 := by omega
    have h1 : m ≠ 1 := by omega
    have h2 : m ≠ 2 := by omega
    have h3 : m ≠ 3 := by omega
    have h4 : m ≠ 4 := by omega
    have h5 : m ≠ 5 := by omega
    have h6 : m ≠ 6 := by omega
    have h7 : m ≠ 7 := by omega
    have h8 : m ≠ 8 := by omega
    have h9 : m ≠ 9 := by omega
    have h10 : m ≠ 10 := by omega
    have h11 : m ≠ 11 := by omega
    have h12 : m ≠ 12 := by omega
    have h13 : m ≠ 13 := by omega
    have h14 : m ≠ 14 := by omega
    have h15 : m ≠ 15 := by omega
    simp only [Nat.digitChar, h0, h1, h2, h3, h4, h5, h6, h7, h8, h9, h10,
      h11, h12, h13, h14, h15, if_false, ite_false]
    decide

theorem toDigitsCore_ne_newline : ∀ (f n : Nat) (acc : List Char),
    (∀ c ∈ acc, c ≠ '\n') → ∀ c ∈ Nat.toDigitsCore 10 f n acc, c ≠ '\n' := by
  intro f
  induction f with
  | zero =>
    intro n acc hacc c hc
    exact hacc c hc
  | succ f ih =>
    intro n acc hacc c hc
    have hd : ∀ x ∈ Nat.digitChar (n % 10) :: acc, x ≠ '\n' := by
      intro x hx
      rcases List.mem_cons.mp hx with h | h
      · subst h
        exact digitChar_ne_newline (n % 10)
      · exact hacc x h
    simp only [Nat.toDigitsCore] at hc
    split at hc
    · exact hd c hc
    · exact ih (n / 10) _ hd c hc

theorem toDigitsCore_ne_nil : ∀ (f n : Nat) (acc : List Char),
    1 ≤ f ∨ acc ≠ [] → Nat.toDigitsCore 10 f n acc ≠ [] := by
  intro f
  induction f with
  | zero =>
    intro n acc h
    rcases h with h | h
    · omega
    · exact h
  | succ f ih =>
    intro n acc _
    simp only [Nat.toDigitsCore]
    split
    · simp
    · exact ih (n / 10) _ (Or.inr (by simp))

theorem natChars_ne_newline (n : Nat) : ∀ c ∈ natChars n, c ≠ '\n' :=
  toDigitsCore_ne_newline (n + 1) n [] (by simp)

theorem natChars_ne_nil (n : Nat) : natChars n ≠ [] :=
  toDigitsCore_ne_nil (n + 1) n [] (Or.inl (by omega))

theorem natChars_getLast (n : Nat) :
    ∃ c, (natChars n).getLast? = some c ∧ c ≠ '\n' := by
  cases hlast : (natChars n).getLast? with
  | none =>
    exact absurd (List.getLast?_eq_none_iff.mp hlast) (natChars_ne_nil n)
  | some c =>
    exact ⟨c, rfl, natChars_ne_newline n c (List.mem_of_getLast?_eq_some hlast)⟩

theorem intercalate_single {α : Type} (sep : List α) (x : List α) :
    List.intercalate sep [x] = x := by
  simp [List.intercalate]

theorem intercalate_cons_cons {α : Type} (sep x y : List α)
    (t : List (List α)) :
    List.intercalate sep (x :: y :: t) =
      x ++ sep ++ List.intercalate sep (y :: t) := by
  simp [List.intercalate, List.intersperse_cons₂, List.flatten_cons,
    List.append_assoc]

/-- Joining lines that all end with `z` gives a string ending with `z`. -/
theorem intercalate_getLast_of_all (sep : List Char) (z : Char) :
    ∀ L : List (List Char), L ≠ [] → (∀ x ∈ L, x.getLast? = some z) →
      (List.intercalate sep L).getLast? = some z
  | [], h, _ => absurd rfl h
  | [x], _, hall => by
    rw [intercalate_single]
    exact hall x (by simp)
  | x :: y :: t, _, hall => by
    rw [intercalate_cons_cons]
    have ih := intercalate_getLast_of_all sep z (y :: t) (by simp)
      fun u hu => hall u (List.mem_cons_of_mem x hu)
    simp [List.getLast?_append, ih]

/-- Every formatted `word(count)` entry ends with a closing paren. -/
theorem pairEntry_getLast (p : List Char × Nat) :
    (p.1 ++ "(".data ++ natChars p.2 ++ ")".data).getLast? = some ')' := by
  simp [List.getLast?_append, List.getLast?_cons, List.getLast?_concat]

/-! Machinery for the word-extraction equivalence: positions, boundaries,
matches of the specification and their relation to the scanner. -/

theorem mem_range_one {i m k : Nat} :
    k ∈ List.range' i m ↔ i ≤ k ∧ k < i + m := by
  simp only [List.mem_range']
  constructor
  · rintro ⟨t, ht, rfl⟩
    omega
  · intro h
    exact ⟨k - i, by omega, by omega⟩

theorem wordAt_cons_succ (c : Char) (s : List Char) (k : Nat) :
    wordAt (c :: s) (k + 1) = wordAt s k := by
  simp [wordAt, List.getElem?_cons_succ]

theorem wordAt_cons_zero (c : Char) (s : List Char) :
    wordAt (c :: s) 0 = isWordChar c := by
  simp [wordAt, List.getElem?_cons_zero]

theorem tokenAt_cons_succ (c : Char) (s : List Char) (k : Nat) :
    tokenAt (c :: s) (k + 1) = tokenAt s k := by
  simp [tokenAt, List.getElem?_cons_succ]

theorem tokenAt_cons_zero (c : Char) (s : List Char) :
    tokenAt (c :: s) 0 = isTokenChar c := by
  simp [tokenAt, List.getElem?_cons_zero]

theorem wordAt_append_left {u v : List Char} {k : Nat} (h : k < u.length) :
    wordAt (u ++ v) k = wordAt u k := by
  unfold wordAt
  rw [List.getElem?_append_left h]

theorem wordAt_append_right {u v : List Char} {k : Nat} (h : u.length ≤ k) :
    wordAt (u ++ v) k = wordAt v (k - u.length) := by
  unfold wordAt
  rw [List.getElem?_append_right h]

theorem tokenAt_append_right {u v : List Char} {k : Nat} (h : u.length ≤ k) :
    tokenAt (u ++ v) k = tokenAt v (k - u.length) := by
  unfold tokenAt
  rw [List.getElem?_append_right h]

theorem wordAt_of_ge_length {s : List Char} {k : Nat} (h : s.length ≤ k) :
    wordAt s k = false := by
  unfold wordAt
  rw [List.getElem?_eq_none h]

theorem tokenAt_of_ge_length {s : List Char} {k : Nat} (h : s.length ≤ k) :
    tokenAt s k = false := by
  unfold tokenAt
  rw [List.getElem?_eq_none h]

theorem wordAt_all_not {u : List Char}
    (h : u.all (fun c => !isWordChar c) = true) {k : Nat} :
    wordAt u k = false := by
  unfold wordAt
  cases hk : u[k]? with
  | none => rfl
  | some c =>
    have hc : c ∈ u := List.getElem?_mem hk
    have := List.all_eq_true.mp h c hc
    simpa using this

theorem tokenAt_all {u : List Char} (h : u.all isTokenChar = true) {k : Nat}
    (hk : k < u.length) : tokenAt u k = true := by
  unfold tokenAt
  rw [List.getElem?_eq_getElem hk]
  exact List.all_eq_true.mp h _ (List.getElem_mem hk)

theorem word_isToken_at {s : List Char} {k : Nat} (h : wordAt s k = true) :
    tokenAt s k = true := by
  unfold wordAt at h
  unfold tokenAt
  cases hk : s[k]? with
  | none => rw [hk] at h; exact absurd h (by simp)
  | some c =>
    rw [hk] at h
    exact isWordChar_isTokenChar h

theorem isBoundary_zero (s : List Char) : isBoundary s 0 = wordAt s 0 := by
  unfold isBoundary
  cases wordAt s 0 <;> rfl

theorem isBoundary_succ (s : List Char) (k : Nat) :
    isBoundary s (k + 1) = (wordAt s k != wordAt s (k + 1)) := rfl

theorem isBoundary_cons_succ {c : Char} (s : List Char)
    (hc : isWordChar c = false) (i : Nat) :
    isBoundary (c :: s) (i + 1) = isBoundary s i := by
  cases i with
  | zero =>
    rw [isBoundary_succ, wordAt_cons_zero, wordAt_cons_succ, hc,
      isBoundary_zero]
    cases wordAt s 0 <;> rfl
  | succ k =>
    rw [isBoundary_succ, wordAt_cons_succ, wordAt_cons_succ, isBoundary_succ]

theorem allToken_iff {s : List Char} {i j : Nat} :
    allToken s i j = true ↔ ∀ k, i ≤ k → k < j → tokenAt s k = true := by
  unfold allToken
  rw [List.all_eq_true]
  constructor
  · intro h k h1 h2
    exact h k (mem_range_one.mpr ⟨h1, by omega⟩)
  · intro h k hk
    have := mem_range_one.mp hk
    exact h k this.1 (by omega)

theorem isMatchSpan_iff {s : List Char} {i j : Nat} :
    isMatchSpan s i j = true ↔
      i < j ∧ j ≤ s.length ∧ (∀ k, i ≤ k → k < j → tokenAt s k = true) ∧
        isBoundary s i = true ∧ isBoundary s j = true := by
  unfold isMatchSpan
  simp only [Bool.and_eq_true, decide_eq_true_eq, allToken_iff]
  tauto

theorem isMatchSpan_token_start {s : List Char} {i j : Nat}
    (h : isMatchSpan s i j = true) : tokenAt s i = true := by
  obtain ⟨h1, _, h3, _, _⟩ := isMatchSpan_iff.mp h
  exact h3 i le_rfl h1

theorem isMaxMatchSpan_iff {s : List Char} {i j : Nat} :
    isMaxMatchSpan s i j = true ↔
      isMatchSpan s i j = true ∧
        ∀ a b, isMatchSpan s a b = true → a ≤ i → j ≤ b →
          a = i ∧ b = j := by
  unfold isMaxMatchSpan
  simp only [Bool.and_eq_true, List.all_eq_true, List.mem_range,
    Bool.or_eq_true, Bool.not_eq_true', Bool.and_eq_false_iff,
    decide_eq_true_eq, decide_eq_false_iff_not]
  constructor
  · rintro ⟨hm, hmax⟩
    refine ⟨hm, ?_⟩
    intro a b hab hai hjb
    have hmatch := isMatchSpan_iff.mp hab
    have ha : a < s.length + 1 := by omega
    have hb : b < s.length + 1 := by omega
    rcases hmax a ha b hb with h | h
    · rcases h with h | h
      · rcases h with h | h
        · rw [hab] at h
          simp at h
        · exact absurd hai h
      · exact absurd hjb h
    · exact h
  · rintro ⟨hm, hmax⟩
    refine ⟨hm, ?_⟩
    intro a _ b _
    by_cases hab : isMatchSpan s a b = true
    · by_cases hai : a ≤ i
      · by_cases hjb : j ≤ b
        · exact Or.inr (hmax a b hab hai hjb)
        · exact Or.inl (Or.inr hjb)
      · exact Or.inl (Or.inl (Or.inr hai))
    · exact Or.inl (Or.inl (Or.inl (by simpa using hab)))

theorem bool_eq_of_iff {a b : Bool} (h : a = true ↔ b = true) : a = b := by
  cases a <;> cases b <;> simp_all

/-! Shifting matches over a leading non-token character. -/

theorem isMatchSpan_cons_iff {c : Char} {s : List Char}
    (hc : isWordChar c = false) (i j : Nat) :
    (isMatchSpan (c :: s) (i + 1) (j + 1) = true) ↔
      isMatchSpan s i j = true := by
  rw [isMatchSpan_iff, isMatchSpan_iff]
  constructor
  · rintro ⟨h1, h2, h3, h4, h5⟩
    refine ⟨by omega, by simpa using h2, ?_, ?_, ?_⟩
    · intro k hk1 hk2
      have := h3 (k + 1) (by omega) (by omega)
      rwa [tokenAt_cons_succ] at this
    · rwa [isBoundary_cons_succ s hc] at h4
    · rwa [isBoundary_cons_succ s hc] at h5
  · rintro ⟨h1, h2, h3, h4, h5⟩
    refine ⟨by omega, by simp; omega, ?_, ?_, ?_⟩
    · intro k hk1 hk2
      cases k with
      | zero => omega
      | succ k2 =>
        rw [tokenAt_cons_succ]
        exact h3 k2 (by omega) (by omega)
    · rwa [isBoundary_cons_succ s hc]
    · rwa [isBoundary_cons_succ s hc]

theorem no_match_at_nontoken {s : List Char} {i j : Nat}
    (h : tokenAt s i = false) : isMatchSpan s i j = false := by
  cases hm : isMatchSpan s i j
  · rfl
  · rw [isMatchSpan_token_start hm] at h
    exact absurd h (by simp)

theorem isMaxMatchSpan_cons_iff {c : Char} {s : List Char}
    (hc : isTokenChar c = false) (i j : Nat) :
    (isMaxMatchSpan (c :: s) (i + 1) (j + 1) = true) ↔
      isMaxMatchSpan s i j = true := by
  have hw : isWordChar c = false := isWordChar_eq_false hc
  rw [isMaxMatchSpan_iff, isMaxMatchSpan_iff]
  constructor
  · rintro ⟨hm, hmax⟩
    refine ⟨(isMatchSpan_cons_iff hw i j).mp hm, ?_⟩
    intro a b hab hai hjb
    have h2 := hmax (a + 1) (b + 1) ((isMatchSpan_cons_iff hw a b).mpr hab)
      (by omega) (by omega)
    omega
  · rintro ⟨hm, hmax⟩
    refine ⟨(isMatchSpan_cons_iff hw i j).mpr hm, ?_⟩
    intro a b hab hai hjb
    cases a with
    | zero =>
      have h0 : tokenAt (c :: s) 0 = false := by
        rw [tokenAt_cons_zero]
        exact hc
      rw [no_match_at_nontoken h0] at hab
      exact absurd hab (by simp)
    | succ a2 =>
      cases b with
      | zero =>
        have := (isMatchSpan_iff.mp hab).1
        omega
      | succ b2 =>
        have h2 := hmax a2 b2 ((isMatchSpan_cons_iff hw a2 b2).mp hab)
          (by omega) (by omega)
        omega

theorem specInner_cons_zero {c : Char} {s : List Char}
    (hc : isTokenChar c = false) : specInner (c :: s) 0 = [] := by
  unfold specInner
  rw [List.filterMap_eq_nil_iff]
  intro j _
  have h0 : tokenAt (c :: s) 0 = false := by
    rw [tokenAt_cons_zero]
    exact hc
  have : isMaxMatchSpan (c :: s) 0 j = false := by
    cases hm : isMaxMatchSpan (c :: s) 0 j
    · rfl
    · have := (isMaxMatchSpan_iff.mp hm).1
      rw [no_match_at_nontoken h0] at this
      exact absurd this (by simp)
  rw [this]
  rfl

theorem filterMap_congr_mem {α β : Type} {f g : α → Option β} :
    ∀ {l : List α}, (∀ a ∈ l, f a = g a) → l.filterMap f = l.filterMap g
  | [], _ => rfl
  | a :: l, h => by
    rw [List.filterMap_cons, List.filterMap_cons, h a (by simp),
      filterMap_congr_mem fun x hx => h x (List.mem_cons_of_mem a hx)]

theorem specInner_cons_succ {c : Char} {s : List Char}
    (hc : isTokenChar c = false) (i : Nat) :
    specInner (c :: s) (i + 1) = specInner s i := by
  unfold specInner
  rw [show (c :: s).length + 1 = (s.length + 1) + 1 by simp,
    List.range_succ_eq_map]
  have h0 : (if isMaxMatchSpan (c :: s) (i + 1) 0 then
      some (((c :: s).drop (i + 1)).take (0 - (i + 1))) else none) = none := by
    have hm : isMaxMatchSpan (c :: s) (i + 1) 0 = false := by
      cases hm2 : isMaxMatchSpan (c :: s) (i + 1) 0
      · rfl
      · have := (isMatchSpan_iff.mp (isMaxMatchSpan_iff.mp hm2).1).1
        omega
    rw [hm]
    rfl
  rw [List.filterMap_cons]
  simp only [h0, List.filterMap_map]
  apply filterMap_congr_mem
  intro j _
  have heq : isMaxMatchSpan (c :: s) (i + 1) (j + 1) =
      isMaxMatchSpan s i j :=
    bool_eq_of_iff (isMaxMatchSpan_cons_iff hc i j)
  simp only [Function.comp_apply, Nat.succ_eq_add_one, Nat.succ_sub_succ,
    heq, List.drop_succ_cons]

theorem specWords_cons_nontoken {c : Char} {s : List Char}
    (hc : isTokenChar c = false) : specWords (c :: s) = specWords s := by
  unfold specWords
  rw [show (c :: s).length + 1 = (s.length + 1) + 1 by simp,
    List.range_succ_eq_map]
  rw [List.flatMap_cons, specInner_cons_zero hc, List.nil_append,
    List.flatMap_map]
  rw [List.flatMap_def, List.flatMap_def]
  congr 1
  apply List.map_congr_left
  intro a _
  simp only [Function.comp_apply, Nat.succ_eq_add_one]
  exact specInner_cons_succ hc a

/-! Decomposition of a token run around its trimmed core. -/

theorem dropWhile_ne_nil_of_any {α : Type} {p : α → Bool} :
    ∀ {l : List α}, l.any p = true → l.dropWhile (fun c => !p c) ≠ [] := by
  intro l
  induction l with
  | nil =>
    intro h
    simp at h
  | cons c t ih =>
    intro h
    by_cases hc : p c = true
    · rw [List.dropWhile_cons]
      simp [hc]
    · rw [List.dropWhile_cons]
      have hc2 : (!p c) = true := by simp [hc]
      rw [if_pos hc2]
      apply ih
      simp only [List.any_cons, Bool.or_eq_true] at h
      rcases h with h | h
      · exact absurd h hc
      · exact h

theorem trimRun_decomp (run : List Char) :
    run = (run.takeWhile fun c => !isWordChar c) ++
      (trimRun run ++ runTail run) := by
  have h2 : trimRun run ++ runTail run =
      run.dropWhile fun c => !isWordChar c := by
    unfold trimRun runTail
    rw [← List.reverse_append, List.takeWhile_append_dropWhile,
      List.reverse_reverse]
  rw [h2, List.takeWhile_append_dropWhile]

theorem trimRun_ne_nil {run : List Char} (h : run.any isWordChar = true) :
    trimRun run ≠ [] := by
  unfold trimRun
  intro hnil
  rw [List.reverse_eq_nil_iff] at hnil
  have hM : run.dropWhile (fun c => !isWordChar c) ≠ [] :=
    dropWhile_ne_nil_of_any h
  obtain ⟨a, M2, hM2⟩ : ∃ a M2,
      run.dropWhile (fun c => !isWordChar c) = a :: M2 := by
    cases hM3 : run.dropWhile (fun c => !isWordChar c) with
    | nil => exact absurd hM3 hM
    | cons a M2 => exact ⟨a, M2, rfl⟩
  have ha : isWordChar a = true := by
    have h2 : ((run.dropWhile fun c => !isWordChar c).head?) = some a := by
      rw [hM2]
      rfl
    have h3 := dropWhile_head_false h2
    simpa using h3
  have hall := List.dropWhile_eq_nil_iff.mp hnil
  have hmem : a ∈ (run.dropWhile fun c => !isWordChar c).reverse := by
    rw [List.mem_reverse, hM2]
    exact List.mem_cons_self a M2
  have := hall a hmem
  rw [ha] at this
  exact absurd this (by simp)

theorem runTail_all (run : List Char) :
    (runTail run).all (fun c => !isWordChar c) = true := by
  unfold runTail
  rw [List.all_reverse]
  exact List.all_takeWhile

theorem trimRun_head_word {run : List Char} {a : Char}
    (h : (trimRun run).head? = some a) : isWordChar a = true := by
  have h2 := trimBoth_head run a h
  simpa using h2

theorem trimRun_getLast_word {run : List Char} {z : Char}
    (h : (trimRun run).getLast? = some z) : isWordChar z = true := by
  have h2 := trimBoth_getLast run z h
  simpa using h2

theorem run_length_decomp (run : List Char) :
    run.length = runFw run + ((trimRun run).length + (runTail run).length) := by
  conv_lhs => rw [trimRun_decomp run]
  simp [List.length_append, runFw]

theorem run_append_decomp (run rest : List Char) :
    run ++ rest = (run.takeWhile fun c => !isWordChar c) ++
      (trimRun run ++ (runTail run ++ rest)) := by
  conv_lhs => rw [trimRun_decomp run]
  simp [List.append_assoc]

/-- Location of the word characters inside a token run: they are exactly
confined to the trimmed core `[runFw, runJ0)`. -/
theorem run_word_positions (run rest : List Char)
    (hW : run.any isWordChar = true) :
    (∀ k, k < runFw run → wordAt (run ++ rest) k = false) ∧
    wordAt (run ++ rest) (runFw run) = true ∧
    wordAt (run ++ rest) (runJ0 run - 1) = true ∧
    (∀ k, runJ0 run ≤ k → k < run.length →
      wordAt (run ++ rest) k = false) ∧
    runFw run < runJ0 run ∧ runJ0 run ≤ run.length := by
  have hTne : trimRun run ≠ [] := trimRun_ne_nil hW
  have hTlen : 1 ≤ (trimRun run).length := by
    cases hT : trimRun run with
    | nil => exact absurd hT hTne
    | cons a T2 => simp
  have hqlen := run_length_decomp run
  have hs := run_append_decomp run rest
  have hAlen : (run.takeWhile fun c => !isWordChar c).length = runFw run :=
    rfl
  refine ⟨?_, ?_, ?_, ?_, by unfold runJ0; omega, by unfold runJ0; omega⟩
  · intro k hk
    rw [hs, wordAt_append_left (by omega)]
    exact wordAt_all_not List.all_takeWhile
  · rw [hs, wordAt_append_right (by omega)]
    rw [hAlen, Nat.sub_self]
    obtain ⟨a, T2, hT⟩ : ∃ a T2, trimRun run = a :: T2 := by
      cases hT : trimRun run with
      | nil => exact absurd hT hTne
      | cons a T2 => exact ⟨a, T2, rfl⟩
    have ha : isWordChar a = true := trimRun_head_word (by rw [hT]; rfl)
    rw [hT, List.cons_append, wordAt_cons_zero]
    exact ha
  · rw [hs, wordAt_append_right (by unfold runJ0; omega)]
    rw [hAlen]
    have hidx : runJ0 run - 1 - runFw run = (trimRun run).length - 1 := by
      unfold runJ0
      omega
    rw [hidx, wordAt_append_left (by omega)]
    obtain ⟨z, hz⟩ : ∃ z, (trimRun run).getLast? = some z := by
      cases hg : (trimRun run).getLast? with
      | none => exact absurd (List.getLast?_eq_none_iff.mp hg) hTne
      | some z => exact ⟨z, rfl⟩
    have hz2 : (trimRun run)[(trimRun run).length - 1]? = some z := by
      rw [← List.getLast?_eq_getElem?]
      exact hz
    unfold wordAt
    rw [hz2]
    exact trimRun_getLast_word hz
  · intro k hk1 hk2
    have hk1b : runFw run + (trimRun run).length ≤ k := by
      unfold runJ0 at hk1
      omega
    rw [hs, wordAt_append_right (by rw [hAlen]; omega)]
    rw [hAlen, wordAt_append_right (by omega)]
    rw [wordAt_append_left (by omega)]
    exact wordAt_all_not (runTail_all run)

theorem tokenAt_append_left {u v : List Char} {k : Nat} (h : k < u.length) :
    tokenAt (u ++ v) k = tokenAt u k := by
  unfold tokenAt
  rw [List.getElem?_append_left h]

theorem token_at_run {run rest : List Char}
    (htok : run.all isTokenChar = true) :
    ∀ k, k < run.length → tokenAt (run ++ rest) k = true := by
  intro k hk
  rw [tokenAt_append_left hk]
  exact tokenAt_all htok hk

theorem not_word_of_not_token {s : List Char} {k : Nat}
    (h : tokenAt s k = false) : wordAt s k = false := by
  cases hw : wordAt s k
  · rfl
  · rw [word_isToken_at hw] at h
    exact absurd h (by simp)

/-- A match cannot straddle the end of the leading token run. -/
theorem match_split {run rest : List Char}
    (htq : tokenAt (run ++ rest) run.length = false) {i j : Nat}
    (hm : isMatchSpan (run ++ rest) i j = true) :
    j ≤ run.length ∨ run.length + 1 ≤ i := by
  by_contra hcon
  rw [not_or] at hcon
  obtain ⟨h1, h2⟩ := hcon
  obtain ⟨hlt, hle, htokk, _, _⟩ := isMatchSpan_iff.mp hm
  have := htokk run.length (by omega) (by omega)
  rw [htq] at this
  exact absurd this (by simp)

theorem wordAt_run_shift (run rest : List Char) (k : Nat) :
    wordAt (run ++ rest) (run.length + k) = wordAt rest k := by
  rw [wordAt_append_right (by omega)]
  congr 1
  omega

theorem tokenAt_run_shift (run rest : List Char) (k : Nat) :
    tokenAt (run ++ rest) (run.length + k) = tokenAt rest k := by
  rw [tokenAt_append_right (by omega)]
  congr 1
  omega

theorem isBoundary_run_shift (run rest : List Char) (i : Nat) (hi : 1 ≤ i) :
    isBoundary (run ++ rest) (run.length + i) = isBoundary rest i := by
  obtain ⟨k, rfl⟩ : ∃ k, i = k + 1 := ⟨i - 1, by omega⟩
  rw [show run.length + (k + 1) = (run.length + k) + 1 from rfl,
    isBoundary_succ, isBoundary_succ, wordAt_run_shift,
    show (run.length + k) + 1 = run.length + (k + 1) from rfl,
    wordAt_run_shift]

theorem isMatchSpan_run_shift (run rest : List Char) {i j : Nat}
    (hi : 1 ≤ i) :
    isMatchSpan (run ++ rest) (run.length + i) (run.length + j) = true ↔
      isMatchSpan rest i j = true := by
  rw [isMatchSpan_iff, isMatchSpan_iff]
  constructor
  · rintro ⟨h1, h2, h3, h4, h5⟩
    rw [List.length_append] at h2
    refine ⟨by omega, by omega, ?_, ?_, ?_⟩
    · intro k hk1 hk2
      have := h3 (run.length + k) (by omega) (by omega)
      rwa [tokenAt_run_shift] at this
    · rwa [isBoundary_run_shift run rest i hi] at h4
    · rwa [isBoundary_run_shift run rest j (by omega)] at h5
  · rintro ⟨h1, h2, h3, h4, h5⟩
    refine ⟨by omega, by rw [List.length_append]; omega, ?_, ?_, ?_⟩
    · intro k hk1 hk2
      obtain ⟨k2, rfl⟩ : ∃ k2, k = run.length + k2 :=
        ⟨k - run.length, by omega⟩
      rw [tokenAt_run_shift]
      exact h3 k2 (by omega) (by omega)
    · rw [isBoundary_run_shift run rest i hi]
      exact h4
    · rw [isBoundary_run_shift run rest j (by omega)]
      exact h5

theorem rest_no_match_at_zero {run rest : List Char}
    (htq : tokenAt (run ++ rest) run.length = false) (j : Nat) :
    isMatchSpan rest 0 j = false := by
  apply no_match_at_nontoken
  have h0 := tokenAt_run_shift run rest 0
  rw [Nat.add_zero] at h0
  rw [← h0]
  exact htq

/-- Without a word character in the run there is no match inside it. -/
theorem no_inrun_match {run rest : List Char} (hq1 : 1 ≤ run.length)
    (hnW : run.any isWordChar = false) {i j : Nat}
    (hm : isMatchSpan (run ++ rest) i j = true) : ¬(j ≤ run.length) := by
  intro hjq
  have hw0 : ∀ k, k < run.length → wordAt (run ++ rest) k = false := by
    intro k hk
    rw [wordAt_append_left hk]
    apply wordAt_all_not
    rw [List.all_eq_true]
    intro c hc
    have h2 := List.any_eq_false.mp hnW c hc
    simpa using h2
  obtain ⟨h1, h2, h3, h4, h5⟩ := isMatchSpan_iff.mp hm
  cases i with
  | zero =>
    rw [isBoundary_zero, hw0 0 (by omega)] at h4
    exact absurd h4 (by simp)
  | succ k =>
    rw [isBoundary_succ, hw0 k (by omega), hw0 (k + 1) (by omega)] at h4
    simp at h4

/-- The trimmed core of the leading token run is a boundary-bounded match. -/
theorem inrun_match {run rest : List Char} (htok : run.all isTokenChar = true)
    (hW : run.any isWordChar = true)
    (htq : tokenAt (run ++ rest) run.length = false) :
    isMatchSpan (run ++ rest) (runFw run) (runJ0 run) = true := by
  obtain ⟨P1, P2, P3, P4, P5, P6⟩ := run_word_positions run rest hW
  rw [isMatchSpan_iff]
  refine ⟨P5, by rw [List.length_append]; omega, ?_, ?_, ?_⟩
  · intro k hk1 hk2
    exact token_at_run htok k (by omega)
  · cases hfw : runFw run with
    | zero =>
      rw [isBoundary_zero, ← hfw]
      exact P2
    | succ k =>
      rw [isBoundary_succ, P1 k (by omega), ← hfw, P2]
      rfl
  · obtain ⟨k, hk⟩ : ∃ k, runJ0 run = k + 1 := ⟨runJ0 run - 1, by omega⟩
    rw [hk, isBoundary_succ]
    have hP3 : wordAt (run ++ rest) k = true := by
      have := P3
      rw [hk] at this
      simpa using this
    have hafter : wordAt (run ++ rest) (k + 1) = false := by
      by_cases hq : k + 1 < run.length
      · exact P4 (k + 1) (by omega) hq
      · have hq2 : k + 1 = run.length := by omega
        rw [hq2]
        exact not_word_of_not_token htq
    rw [hP3, hafter]
    rfl

/-- Any match inside the leading token run lies inside its trimmed core. -/
theorem inrun_match_bounds {run rest : List Char}
    (hW : run.any isWordChar = true)
    (htq : tokenAt (run ++ rest) run.length = false) {i j : Nat}
    (hm : isMatchSpan (run ++ rest) i j = true) (hjq : j ≤ run.length) :
    runFw run ≤ i ∧ j ≤ runJ0 run := by
  obtain ⟨P1, P2, P3, P4, P5, P6⟩ := run_word_positions run rest hW
  have ploc : ∀ k, wordAt (run ++ rest) k = true → k < run.length →
      runFw run ≤ k ∧ k < runJ0 run := by
    intro k hk hkq
    constructor
    · by_contra hcon
      rw [P1 k (by omega)] at hk
      exact absurd hk (by simp)
    · by_contra hcon
      rw [P4 k (by omega) hkq] at hk
      exact absurd hk (by simp)
  obtain ⟨h1, h2, h3, h4, h5⟩ := isMatchSpan_iff.mp hm
  have hbool : ∀ x y : Bool, (x != y) = true → x = true ∨ y = true := by
    intro x y h
    cases x <;> cases y <;> simp_all
  constructor
  · cases i with
    | zero =>
      rw [isBoundary_zero] at h4
      have := (ploc 0 h4 (by omega)).1
      omega
    | succ k =>
      rw [isBoundary_succ] at h4
      rcases hbool _ _ h4 with hw | hw
      · have := ploc k hw (by omega)
        omega
      · have := ploc (k + 1) hw (by omega)
        omega
  · obtain ⟨k, rfl⟩ : ∃ k, j = k + 1 := ⟨j - 1, by omega⟩
    rw [isBoundary_succ] at h5
    rcases hbool _ _ h5 with hw | hw
    · have := (ploc k hw (by omega)).2
      omega
    · have hkq : k + 1 < run.length := by
        have htk : tokenAt (run ++ rest) (k + 1) = true := word_isToken_at hw
        by_contra hcon
        have hq2 : k + 1 = run.length := by omega
        rw [hq2, htq] at htk
        exact absurd htk (by simp)
      have := (ploc (k + 1) hw hkq).2
      omega

/-- Characterization of maximal matches of a string with a leading maximal
token run: one match for the trimmed core (when the run has a word
character), plus the shifted maximal matches of the remainder. -/
theorem isMaxMatchSpan_run_iff {run rest : List Char}
    (htok : run.all isTokenChar = true) (hq1 : 1 ≤ run.length)
    (htq : tokenAt (run ++ rest) run.length = false) (i j : Nat) :
    isMaxMatchSpan (run ++ rest) i j = true ↔
      (run.any isWordChar = true ∧ i = runFw run ∧ j = runJ0 run) ∨
      (∃ i2 j2, i = run.length + i2 ∧ j = run.length + j2 ∧ 1 ≤ i2 ∧
        isMaxMatchSpan rest i2 j2 = true) := by
  constructor
  · intro h
    obtain ⟨hm, hmax⟩ := isMaxMatchSpan_iff.mp h
    rcases match_split htq hm with hjq | hiq
    · left
      have hW : run.any isWordChar = true := by
        cases hW2 : run.any isWordChar
        · exact absurd hjq (no_inrun_match hq1 hW2 hm)
        · rfl
      have hb := inrun_match_bounds hW htq hm hjq
      have him := inrun_match htok hW htq
      have heq := hmax _ _ him hb.1 hb.2
      exact ⟨hW, heq.1.symm, heq.2.symm⟩
    · right
      have hij := (isMatchSpan_iff.mp hm).1
      obtain ⟨i2, rfl⟩ : ∃ i2, i = run.length + i2 :=
        ⟨i - run.length, by omega⟩
      obtain ⟨j2, rfl⟩ : ∃ j2, j = run.length + j2 :=
        ⟨j - run.length, by omega⟩
      have h1i : 1 ≤ i2 := by omega
      refine ⟨i2, j2, rfl, rfl, h1i, ?_⟩
      rw [isMaxMatchSpan_iff]
      refine ⟨(isMatchSpan_run_shift run rest h1i).mp hm, ?_⟩
      intro a b hab hai hjb
      have ha1 : 1 ≤ a := by
        by_contra hcon
        have ha0 : a = 0 := by omega
        rw [ha0, rest_no_match_at_zero htq b] at hab
        exact absurd hab (by simp)
      have hs := (isMatchSpan_run_shift run rest ha1).mpr hab
      have heq := hmax (run.length + a) (run.length + b) hs (by omega)
        (by omega)
      exact ⟨by omega, by omega⟩
  · intro h
    rcases h with ⟨hW, rfl, rfl⟩ | ⟨i2, j2, rfl, rfl, h1i, hmax2⟩
    · rw [isMaxMatchSpan_iff]
      refine ⟨inrun_match htok hW htq, ?_⟩
      intro a b hab hai hjb
      rcases match_split htq hab with hb2 | ha2
      · have hbnd := inrun_match_bounds hW htq hab hb2
        exact ⟨by omega, by omega⟩
      · obtain ⟨_, _, _, _, P5, P6⟩ := run_word_positions run rest hW
        omega
    · have hij2 : i2 < j2 :=
        (isMatchSpan_iff.mp (isMaxMatchSpan_iff.mp hmax2).1).1
      rw [isMaxMatchSpan_iff]
      refine ⟨(isMatchSpan_run_shift run rest h1i).mpr
        (isMaxMatchSpan_iff.mp hmax2).1, ?_⟩
      intro a b hab hai hjb
      rcases match_split htq hab with hb2 | ha2
      · omega
      · obtain ⟨a2, rfl⟩ : ∃ a2, a = run.length + a2 :=
          ⟨a - run.length, by omega⟩
        obtain ⟨b2, rfl⟩ : ∃ b2, b = run.length + b2 :=
          ⟨b - run.length, by omega⟩
        have ha1 : 1 ≤ a2 := by omega
        have hr := (isMatchSpan_run_shift run rest ha1).mp hab
        have heq := (isMaxMatchSpan_iff.mp hmax2).2 a2 b2 hr (by omega)
          (by omega)
        exact ⟨by omega, by omega⟩

theorem filterMap_range_eq_nil {β : Type} {N : Nat} {g : Nat → Option β}
    (h : ∀ j, j < N → g j = none) : (List.range N).filterMap g = [] := by
  rw [List.filterMap_eq_nil_iff]
  intro a ha
  exact h a (List.mem_range.mp ha)

theorem filterMap_range_singleton {β : Type} {N j0 : Nat} {g : Nat → Option β}
    {v : β} (hj : j0 < N) (hg : g j0 = some v)
    (hnone : ∀ j, j ≠ j0 → g j = none) :
    (List.range N).filterMap g = [v] := by
  induction N with
  | zero => omega
  | succ N ih =>
    rw [List.range_succ, List.filterMap_append]
    by_cases hN : j0 = N
    · subst hN
      rw [filterMap_range_eq_nil fun j hjlt => hnone j (by omega)]
      simp [hg]
    · rw [ih (by omega)]
      simp [hnone N fun h => hN h.symm]

theorem flatMap_range_eq_nil {β : Type} {N : Nat} {F : Nat → List β}
    (h : ∀ i, i < N → F i = []) : (List.range N).flatMap F = [] := by
  rw [List.flatMap_eq_nil_iff]
  intro a ha
  exact h a (List.mem_range.mp ha)

theorem flatMap_range_unique {β : Type} {N i0 : Nat} {F : Nat → List β}
    (hi : i0 < N) (hnone : ∀ i, i < N → i ≠ i0 → F i = []) :
    (List.range N).flatMap F = F i0 := by
  induction N with
  | zero => omega
  | succ N ih =>
    rw [List.range_succ, List.flatMap_append]
    by_cases hN : i0 = N
    · subst hN
      rw [flatMap_range_eq_nil fun i hilt => hnone i (by omega) (by omega)]
      simp
    · rw [ih (by omega) fun i h1 h2 => hnone i (by omega) h2]
      rw [show List.flatMap [N] F = F N ++ [] by simp, List.append_nil]
      rw [hnone N (by omega) fun h => hN h.symm, List.append_nil]

theorem specInner_inrun_ne {run rest : List Char}
    (htok : run.all isTokenChar = true) (hq1 : 1 ≤ run.length)
    (htq : tokenAt (run ++ rest) run.length = false) {i : Nat}
    (hi : i < run.length)
    (hne : ¬(run.any isWordChar = true ∧ i = runFw run)) :
    specInner (run ++ rest) i = [] := by
  unfold specInner
  rw [List.filterMap_eq_nil_iff]
  intro j _
  have hmm : isMaxMatchSpan (run ++ rest) i j = false := by
    cases hmax : isMaxMatchSpan (run ++ rest) i j
    · rfl
    · rcases (isMaxMatchSpan_run_iff htok hq1 htq i j).mp hmax with
        ⟨hW, hif, _⟩ | ⟨i2, j2, hie, _, h1, _⟩
      · exact absurd ⟨hW, hif⟩ hne
      · omega
  rw [hmm]
  rfl

theorem slice_inrun (run rest : List Char) :
    ((run ++ rest).drop (runFw run)).take (runJ0 run - runFw run) =
      trimRun run := by
  rw [run_append_decomp run rest,
    List.drop_left'
      (show (run.takeWhile fun c => !isWordChar c).length = runFw run from
        rfl),
    show runJ0 run - runFw run = (trimRun run).length by unfold runJ0; omega,
    List.take_left' rfl]

theorem specInner_inrun_fw {run rest : List Char}
    (htok : run.all isTokenChar = true) (hq1 : 1 ≤ run.length)
    (htq : tokenAt (run ++ rest) run.length = false)
    (hW : run.any isWordChar = true) :
    specInner (run ++ rest) (runFw run) = [trimRun run] := by
  obtain ⟨_, _, _, _, P5, P6⟩ := run_word_positions run rest hW
  unfold specInner
  have hj : runJ0 run < (run ++ rest).length + 1 := by
    rw [List.length_append]
    omega
  have hg : (if isMaxMatchSpan (run ++ rest) (runFw run) (runJ0 run) = true
      then some (((run ++ rest).drop (runFw run)).take
        (runJ0 run - runFw run))
      else none) = some (trimRun run) := by
    rw [if_pos ((isMaxMatchSpan_run_iff htok hq1 htq _ _).mpr
      (Or.inl ⟨hW, rfl, rfl⟩)), slice_inrun]
  have hnone : ∀ j, j ≠ runJ0 run →
      (if isMaxMatchSpan (run ++ rest) (runFw run) j = true
        then some (((run ++ rest).drop (runFw run)).take (j - runFw run))
        else none) = none := by
    intro j hne
    have hmm : isMaxMatchSpan (run ++ rest) (runFw run) j = false := by
      cases hmax : isMaxMatchSpan (run ++ rest) (runFw run) j
      · rfl
      · rcases (isMaxMatchSpan_run_iff htok hq1 htq _ _).mp hmax with
          ⟨_, _, hj2⟩ | ⟨i2, j2, hie, _, h1, _⟩
        · exact absurd hj2 hne
        · omega
    rw [hmm]
    rfl
  exact filterMap_range_singleton hj hg hnone

theorem isMaxMatchSpan_shift_eq {run rest : List Char}
    (htok : run.all isTokenChar = true) (hq1 : 1 ≤ run.length)
    (htq : tokenAt (run ++ rest) run.length = false) (i2 j2 : Nat) :
    isMaxMatchSpan (run ++ rest) (run.length + i2) (run.length + j2) =
      isMaxMatchSpan rest i2 j2 := by
  apply bool_eq_of_iff
  constructor
  · intro h
    rcases (isMaxMatchSpan_run_iff htok hq1 htq _ _).mp h with
      ⟨hW, hif, _⟩ | ⟨a, b, ha, hb, h1, hmax⟩
    · obtain ⟨_, _, _, _, P5, P6⟩ := run_word_positions run rest hW
      omega
    · have ha2 : a = i2 := by omega
      have hb2 : b = j2 := by omega
      rw [← ha2, ← hb2]
      exact hmax
  · intro h
    have h1 : 1 ≤ i2 := by
      by_contra h0
      have hi0 : i2 = 0 := by omega
      have hm := (isMaxMatchSpan_iff.mp h).1
      rw [hi0, rest_no_match_at_zero htq j2] at hm
      exact absurd hm (by simp)
    exact (isMaxMatchSpan_run_iff htok hq1 htq _ _).mpr
      (Or.inr ⟨i2, j2, rfl, rfl, h1, h⟩)

theorem slice_shift (run rest : List Char) (i2 j2 : Nat) :
    ((run ++ rest).drop (run.length + i2)).take
      ((run.length + j2) - (run.length + i2)) =
      (rest.drop i2).take (j2 - i2) := by
  rw [← List.drop_drop, List.drop_left]
  congr 1
  omega

theorem specInner_shift {run rest : List Char}
    (htok : run.all isTokenChar = true) (hq1 : 1 ≤ run.length)
    (htq : tokenAt (run ++ rest) run.length = false) (i2 : Nat) :
    specInner (run ++ rest) (run.length + i2) = specInner rest i2 := by
  unfold specInner
  rw [List.length_append,
    show run.length + rest.length + 1 =
      run.length + (rest.length + 1) from rfl,
    List.range_add, List.filterMap_append, List.filterMap_map]
  have hleft : (List.range run.length).filterMap
      (fun j => if isMaxMatchSpan (run ++ rest) (run.length + i2) j = true
        then some (((run ++ rest).drop (run.length + i2)).take
          (j - (run.length + i2)))
        else none) = [] := by
    apply filterMap_range_eq_nil
    intro j hj
    have hmm : isMaxMatchSpan (run ++ rest) (run.length + i2) j = false := by
      cases hmax : isMaxMatchSpan (run ++ rest) (run.length + i2) j
      · rfl
      · have := (isMatchSpan_iff.mp (isMaxMatchSpan_iff.mp hmax).1).1
        omega
    rw [hmm]
    rfl
  rw [hleft, List.nil_append]
  apply filterMap_congr_mem
  intro j2 _
  simp only [Function.comp_apply]
  rw [isMaxMatchSpan_shift_eq htok hq1 htq i2 j2, slice_shift run rest i2 j2]

theorem specWords_run_peel {run rest : List Char}
    (htok : run.all isTokenChar = true) (hq1 : 1 ≤ run.length)
    (htq : tokenAt (run ++ rest) run.length = false) :
    specWords (run ++ rest) = flushRun run ++ specWords rest := by
  unfold specWords
  rw [List.length_append,
    show run.length + rest.length + 1 =
      run.length + (rest.length + 1) from rfl,
    List.range_add, List.flatMap_append, List.flatMap_map]
  have hright : ((List.range (rest.length + 1)).flatMap fun a =>
      specInner (run ++ rest) (run.length + a)) =
      (List.range (rest.length + 1)).flatMap fun i => specInner rest i := by
    rw [List.flatMap_def, List.flatMap_def]
    congr 1
    apply List.map_congr_left
    intro a _
    exact specInner_shift htok hq1 htq a
  rw [hright]
  congr 1
  by_cases hW : run.any isWordChar = true
  · obtain ⟨_, _, _, _, P5, P6⟩ := run_word_positions run rest hW
    have hnone : ∀ i, i < run.length → i ≠ runFw run →
        specInner (run ++ rest) i = [] := fun i h1 h2 =>
      specInner_inrun_ne htok hq1 htq h1 fun hpair => h2 hpair.2
    rw [flatMap_range_unique (by omega) hnone,
      specInner_inrun_fw htok hq1 htq hW]
    unfold flushRun
    rw [if_pos hW]
  · rw [flatMap_range_eq_nil fun i h1 =>
      specInner_inrun_ne htok hq1 htq h1 fun hpair => hW hpair.1]
    unfold flushRun
    rw [if_neg hW]

/-! The scanner processes a leading maximal token run in the same way. -/

theorem extractWords_cons_nontoken {c : Char} {cs : List Char}
    (hc : isTokenChar c = false) :
    extractWords (c :: cs) = extractWords cs := by
  simp [extractWords, extractAux, hc, flushRun]

theorem extractAux_run : ∀ (run acc rest : List Char),
    run.all isTokenChar = true →
    (rest = [] ∨ ∃ d ds, rest = d :: ds ∧ isTokenChar d = false) →
    extractAux (run ++ rest) acc =
      flushRun (acc.reverse ++ run) ++ extractWords rest := by
  intro run
  induction run with
  | nil =>
    intro acc rest _ hrest
    rcases hrest with rfl | ⟨d, ds, rfl, hd⟩
    · simp [extractAux, extractWords, flushRun]
    · simp [extractAux, extractWords, hd, flushRun]
  | cons r run ih =>
    intro acc rest hall hrest
    have hr : isTokenChar r = true := by
      simp only [List.all_cons, Bool.and_eq_true] at hall
      exact hall.1
    have hall2 : run.all isTokenChar = true := by
      simp only [List.all_cons, Bool.and_eq_true] at hall
      exact hall.2
    rw [List.cons_append,
      show extractAux (r :: (run ++ rest)) acc =
        extractAux (run ++ rest) (r :: acc) by simp [extractAux, hr],
      ih (r :: acc) rest hall2 hrest]
    congr 2
    rw [List.reverse_cons, List.append_assoc]
    rfl

theorem extractWords_run_peel {run rest : List Char}
    (hall : run.all isTokenChar = true)
    (hrest : rest = [] ∨ ∃ d ds, rest = d :: ds ∧ isTokenChar d = false) :
    extractWords (run ++ rest) = flushRun run ++ extractWords rest := by
  have h := extractAux_run run [] rest hall hrest
  simpa [extractWords] using h

/-- Main equivalence: the scanner embedding of the regex extraction agrees
with the specification's maximal boundary-bounded runs, everywhere. -/
theorem extractWords_eq_specWords : ∀ s : List Char,
    extractWords s = specWords s
  | [] => by decide
  | c :: cs => by
    by_cases hc : isTokenChar c = true
    · have hsplit : (c :: cs).takeWhile isTokenChar ++
          (c :: cs).dropWhile isTokenChar = c :: cs :=
        List.takeWhile_append_dropWhile isTokenChar (c :: cs)
      have hall : ((c :: cs).takeWhile isTokenChar).all isTokenChar = true :=
        List.all_takeWhile
      have hrun : (c :: cs).takeWhile isTokenChar =
          c :: cs.takeWhile isTokenChar := by
        rw [List.takeWhile_cons, if_pos hc]
      have hq1 : 1 ≤ ((c :: cs).takeWhile isTokenChar).length := by
        rw [hrun]
        simp
      have hrestd : (c :: cs).dropWhile isTokenChar =
          cs.dropWhile isTokenChar := by
        rw [List.dropWhile_cons, if_pos hc]
      have hrest : (c :: cs).dropWhile isTokenChar = [] ∨
          ∃ d ds, (c :: cs).dropWhile isTokenChar = d :: ds ∧
            isTokenChar d = false := by
        cases hr : (c :: cs).dropWhile isTokenChar with
        | nil => exact Or.inl rfl
        | cons d ds =>
          refine Or.inr ⟨d, ds, rfl, ?_⟩
          have h2 : ((c :: cs).dropWhile isTokenChar).head? = some d := by
            rw [hr]
            rfl
          exact dropWhile_head_false h2
      have htq : tokenAt ((c :: cs).takeWhile isTokenChar ++
          (c :: cs).dropWhile isTokenChar)
          ((c :: cs).takeWhile isTokenChar).length = false := by
        rcases hrest with hnil | ⟨d, ds, hd, hdt⟩
        · rw [hnil]
          apply tokenAt_of_ge_length
          simp
        · rw [hd]
          have hsh := tokenAt_run_shift ((c :: cs).takeWhile isTokenChar)
            (d :: ds) 0
          rw [Nat.add_zero] at hsh
          rw [hsh, tokenAt_cons_zero]
          exact hdt
      have hlen : ((c :: cs).dropWhile isTokenChar).length <
          (c :: cs).length := by
        rw [hrestd]
        have hsub : (cs.dropWhile isTokenChar).length ≤ cs.length :=
          (List.dropWhile_sublist isTokenChar).length_le
        simp only [List.length_cons]
        omega
      have ih := extractWords_eq_specWords ((c :: cs).dropWhile isTokenChar)
      rw [← hsplit, extractWords_run_peel hall hrest,
        specWords_run_peel hall hq1 htq, ih]
    · have hc2 : isTokenChar c = false := by simpa using hc
      have ih := extractWords_eq_specWords cs
      rw [extractWords_cons_nontoken hc2, specWords_cons_nontoken hc2, ih]
termination_by s => s.length
decreasing_by
  · exact hlen
  · simp

theorem isQuoteChar_eq_false_of_word {c : Char} (h : isWordChar c = true) :
    isQuoteChar c = false := by
  cases hq : isQuoteChar c
  · rfl
  · exfalso
    unfold isQuoteChar at hq
    simp only [Bool.or_eq_true, decide_eq_true_eq] at hq
    rcases hq with hq | hq
    · subst hq
      exact absurd h (by decide)
    · subst hq
      exact absurd h (by decide)

/-- Every word produced by the scanner is a trimmed token run containing a
word character. -/
theorem mem_extractAux : ∀ (s acc w : List Char), w ∈ extractAux s acc →
    ∃ r, r.any isWordChar = true ∧ w = trimRun r := by
  intro s
  induction s with
  | nil =>
    intro acc w hw
    simp only [extractAux] at hw
    unfold flushRun at hw
    by_cases h : acc.reverse.any isWordChar = true
    · rw [if_pos h, List.mem_singleton] at hw
      exact ⟨acc.reverse, h, hw⟩
    · rw [if_neg h] at hw
      simp at hw
  | cons c cs ih =>
    intro acc w hw
    simp only [extractAux] at hw
    by_cases hc : isTokenChar c = true
    · rw [if_pos hc] at hw
      exact ih (c :: acc) w hw
    · rw [if_neg hc, List.mem_append] at hw
      rcases hw with hw | hw
      · unfold flushRun at hw
        by_cases h : acc.reverse.any isWordChar = true
        · rw [if_pos h, List.mem_singleton] at hw
          exact ⟨acc.reverse, h, hw⟩
        · rw [if_neg h] at hw
          simp at hw
      · exact ih [] w hw

theorem mem_extractWords {s w : List Char} (h : w ∈ extractWords s) :
    ∃ r, r.any isWordChar = true ∧ w = trimRun r :=
  mem_extractAux s [] w h

/-! Claim theorems. -/

/-- C1: for every input string the extracted word sequence is exactly the
sequence of maximal boundary-bounded runs of word characters, apostrophes
and hyphens, in text order, and `wordCount` is its length. -/
theorem word_extraction_spec (s : List Char) :
    extractWords s = specWords s ∧
    (analyze_text s).words = (specWords s).length := by
  refine ⟨extractWords_eq_specWords s, ?_⟩
  show (extractWords s).length = (specWords s).length
  rw [extractWords_eq_specWords s]

/-- C10: every extracted token is non-empty, begins and ends with a word
character (apostrophes and hyphens occur only in its interior), and is
therefore unchanged by the quote-stripping step. -/
theorem token_boundary_spec (s w : List Char) (h : w ∈ extractWords s) :
    w ≠ [] ∧ (∀ a, w.head? = some a → isWordChar a = true) ∧
    (∀ z, w.getLast? = some z → isWordChar z = true) ∧
    stripQuotes w = w := by
  obtain ⟨r, hr, rfl⟩ := mem_extractWords h
  refine ⟨trimRun_ne_nil hr, fun a ha => trimRun_head_word ha,
    fun z hz => trimRun_getLast_word hz, ?_⟩
  apply trimBoth_eq_self
  · intro a ha
    exact isQuoteChar_eq_false_of_word (trimRun_head_word ha)
  · intro z hz
    exact isQuoteChar_eq_false_of_word (trimRun_getLast_word hz)

/-- Witness for C10 on the specification's example input. -/
theorem token_boundary_spec_witness :
    "Hello".data ∈ extractWords "Hello, world!".data ∧
    ("Hello".data ≠ [] ∧
      (∀ a, "Hello".data.head? = some a → isWordChar a = true) ∧
      (∀ z, "Hello".data.getLast? = some z → isWordChar z = true) ∧
      stripQuotes "Hello".data = "Hello".data) := by
  have hm : "Hello".data ∈ extractWords "Hello, world!".data := by decide
  exact ⟨hm, token_boundary_spec "Hello, world!".data "Hello".data hm⟩

/-- C5: for every input string the analyzer reports `characterCount` equal
to the length of the input, and `characterCountNoSpaces` (the length after
removing all whitespace) never exceeds it. -/
theorem character_counts_spec (s : List Char) :
    (analyze_text s).characters = s.length ∧
    (analyze_text s).characters_no_spaces ≤ (analyze_text s).characters := by
  refine ⟨rfl, ?_⟩
  simpa [analyze_text, removeSpaces] using
    List.length_filter_le (fun c => !c.isWhitespace) s

/-- C6: analyzing the empty string yields all-zero counts and an empty
top-words sequence. -/
theorem empty_input_spec : analyze_text [] =
    { words := 0, characters := 0, characters_no_spaces := 0,
      sentences := 0, most_common_words := [] } := by
  have h : mostCommon ((extractWords ([] : List Char)).map processWord) = [] := by
    simp [mostCommon, extractWords, extractAux, flushRun, counterItems,
      counterItemsGo]
  simp only [analyze_text, h]
  decide

/-- C2: for every input string, `sentenceCount` is the number of segments
obtained by splitting at each maximal run of the characters period,
exclamation mark and question mark that are neither empty nor pure
whitespace; the unterminated trailing remainder counts, so "One. Two" has
two sentences. -/
theorem sentence_count_spec :
    (∀ s : List Char,
      (analyze_text s).sentences =
        ((splitTerm s).filter fun seg => !seg.all Char.isWhitespace).length) ∧
    (analyze_text "One. Two".data).sentences = 2 := by
  constructor
  · intro s
    rfl
  · decide

/-- C9: the analyzer is a total function on strings and produces degenerate,
zero-valued statistics on degenerate (all-whitespace, hence wordless and
sentence-terminator-free) input. -/
theorem analyze_total_spec :
    (∀ s : List Char, ∃ st : TextStatistics, analyze_text s = st) ∧
    (∀ s : List Char, s.all Char.isWhitespace = true →
      analyze_text s =
        { words := 0, characters := s.length, characters_no_spaces := 0,
          sentences := 0, most_common_words := [] }) := by
  constructor
  · intro s
    exact ⟨analyze_text s, rfl⟩
  · intro s h
    have hw := extractWords_of_whitespace h
    have hmc : mostCommon [] = [] := by
      simp [mostCommon, counterItems, counterItemsGo]
    simp only [analyze_text, hw, removeSpaces_of_whitespace h,
      sentenceSegments_of_whitespace h, List.map_nil, hmc]
    rfl

/-- C8: the report is the four fixed statistics lines in order, followed by
the comma-separated `word(count)` line exactly when `topWords` is non-empty,
with no trailing blank line (the rendering never ends in a newline). -/
theorem format_report_spec (st : TextStatistics) :
    (st.most_common_words = [] →
      format_report st =
        "Words: ".data ++ natChars st.words ++ ['\n'] ++
        "Characters (including spaces): ".data ++ natChars st.characters ++
        ['\n'] ++
        "Characters (no spaces): ".data ++ natChars st.characters_no_spaces ++
        ['\n'] ++
        "Sentences: ".data ++ natChars st.sentences) ∧
    (st.most_common_words ≠ [] →
      format_report st =
        "Words: ".data ++ natChars st.words ++ ['\n'] ++
        "Characters (including spaces): ".data ++ natChars st.characters ++
        ['\n'] ++
        "Characters (no spaces): ".data ++ natChars st.characters_no_spaces ++
        ['\n'] ++
        "Sentences: ".data ++ natChars st.sentences ++ ['\n'] ++
        "Top words: ".data ++
          List.intercalate ", ".data
            (st.most_common_words.map fun p =>
              p.1 ++ "(".data ++ natChars p.2 ++ ")".data)) ∧
    (format_report st).getLast? ≠ some '\n' := by
  by_cases h : st.most_common_words = []
  · have heq : format_report st =
        "Words: ".data ++ natChars st.words ++ ['\n'] ++
        "Characters (including spaces): ".data ++ natChars st.characters ++
        ['\n'] ++
        "Characters (no spaces): ".data ++ natChars st.characters_no_spaces ++
        ['\n'] ++
        "Sentences: ".data ++ natChars st.sentences := by
      simp [format_report, h, List.intercalate, List.intersperse,
        List.append_assoc]
    refine ⟨fun _ => heq, fun hne => absurd h hne, ?_⟩
    rw [heq]
    obtain ⟨c, hc, hcne⟩ := natChars_getLast st.sentences
    simp only [List.getLast?_append, hc, Option.or_some, ne_eq,
      Option.some.injEq]
    exact hcne
  · have heq : format_report st =
        "Words: ".data ++ natChars st.words ++ ['\n'] ++
        "Characters (including spaces): ".data ++ natChars st.characters ++
        ['\n'] ++
        "Characters (no spaces): ".data ++ natChars st.characters_no_spaces ++
        ['\n'] ++
        "Sentences: ".data ++ natChars st.sentences ++ ['\n'] ++
        "Top words: ".data ++
          List.intercalate ", ".data
            (st.most_common_words.map fun p =>
              p.1 ++ "(".data ++ natChars p.2 ++ ")".data) := by
      simp [format_report, h, List.intercalate, List.intersperse,
        List.append_assoc]
    refine ⟨fun he => absurd he h, fun _ => heq, ?_⟩
    rw [heq]
    have hpairs : (List.intercalate ", ".data
        (st.most_common_words.map fun p =>
          p.1 ++ "(".data ++ natChars p.2 ++ ")".data)).getLast? = some ')' := by
      apply intercalate_getLast_of_all
      · simp [h]
      · intro x hx
        rcases List.mem_map.mp hx with ⟨p, _, hp⟩
        rw [← hp]
        exact pairEntry_getLast p
    simp only [List.getLast?_append, hpairs, Option.or_some, ne_eq,
      Option.some.injEq]
    decide

/-- Witness for C8: the report layout at a record with empty top words and
at a record with one top word. -/
theorem format_report_spec_witness :
    (format_report
        { words := 4, characters := 26, characters_no_spaces := 22,
          sentences := 2, most_common_words := [] } =
      "Words: ".data ++ natChars 4 ++ ['\n'] ++
      "Characters (including spaces): ".data ++ natChars 26 ++ ['\n'] ++
      "Characters (no spaces): ".data ++ natChars 22 ++ ['\n'] ++
      "Sentences: ".data ++ natChars 2) ∧
    (format_report
        { words := 4, characters := 26, characters_no_spaces := 22,
          sentences := 2, most_common_words := [("hello".data, 2)] } =
      "Words: ".data ++ natChars 4 ++ ['\n'] ++
      "Characters (including spaces): ".data ++ natChars 26 ++ ['\n'] ++
      "Characters (no spaces): ".data ++ natChars 22 ++ ['\n'] ++
      "Sentences: ".data ++ natChars 2 ++ ['\n'] ++
      "Top words: ".data ++
        List.intercalate ", ".data
          ([("hello".data, 2)].map fun p =>
            p.1 ++ "(".data ++ natChars p.2 ++ ")".data)) :=
  ⟨(format_report_spec _).1 rfl, (format_report_spec _).2.1 (by decide)⟩

/-- C4: the length of `topWords` is the minimum of five and the number of
distinct processed words; with zero words it is empty. -/
theorem top_words_length_spec (s : List Char) :
    (analyze_text s).most_common_words.length = min 5 (specDistinctCount s) ∧
    ((analyze_text s).words = 0 →
      (analyze_text s).most_common_words = []) := by
  constructor
  · show (mostCommon _).length = _
    rw [mostCommon_length, counterItems_length]
    rfl
  · intro h0
    have hnil : extractWords s = [] := List.length_eq_zero.mp h0
    show mostCommon ((extractWords s).map processWord) = []
    rw [hnil]
    simp [mostCommon, counterItems_nil]

/-- C7: every word in `topWords` is already lowercase (lowercasing it again
changes nothing) and carries no leading or trailing quote characters
(stripping quotes again changes nothing). -/
theorem top_words_normalized_spec (s w : List Char) (c : Nat)
    (h : (w, c) ∈ (analyze_text s).most_common_words) :
    w.map Char.toLower = w ∧ stripQuotes w = w := by
  have h1 : (w, c) ∈
      (counterItems ((extractWords s).map processWord)).mergeSort countGe :=
    List.mem_of_mem_take h
  have h2 : (w, c) ∈ counterItems ((extractWords s).map processWord) :=
    List.mem_mergeSort.mp h1
  have h3 : w ∈ (extractWords s).map processWord :=
    (counterItems_mem _ _ h2).1
  obtain ⟨r, _, hr⟩ := List.mem_map.mp h3
  constructor
  · rw [← hr]
    exact processWord_lower_idem r
  · rw [← hr]
    exact processWord_strip_idem r

/-- C3: `topWords` is sorted by descending count, and among entries with
equal counts the word whose first occurrence in the processed word sequence
comes earlier is listed first; in particular on "b a a b" the word b
precedes the word a. -/
theorem top_words_order_spec :
    (∀ (s : List Char) (i j : Nat)
      (hi : i < (analyze_text s).most_common_words.length)
      (hj : j < (analyze_text s).most_common_words.length), i < j →
      ((analyze_text s).most_common_words.get ⟨i, hi⟩).2 =
        ((analyze_text s).most_common_words.get ⟨j, hj⟩).2 →
      firstIdx ((analyze_text s).most_common_words.get ⟨i, hi⟩).1
          ((extractWords s).map processWord) <
        firstIdx ((analyze_text s).most_common_words.get ⟨j, hj⟩).1
          ((extractWords s).map processWord)) ∧
    (∀ s : List Char,
      (analyze_text s).most_common_words.Pairwise fun p q => q.2 ≤ p.2) ∧
    (analyze_text "b a a b".data).most_common_words =
      [(['b'], 2), (['a'], 2)] := by
  refine ⟨?_, ?_, ?_⟩
  · intro s i j hi hj hij heqc
    set pws := (extractWords s).map processWord with hpws
    set L := counterItems pws with hLdef
    set S := L.mergeSort countGe with hSdef
    have htw : (analyze_text s).most_common_words = S.take 5 := rfl
    have hi5 : i < (S.take 5).length := by rw [← htw]; exact hi
    have hj5 : j < (S.take 5).length := by rw [← htw]; exact hj
    have hiS : i < S.length :=
      lt_of_lt_of_le hi5 (by rw [List.length_take]; exact Nat.min_le_right 5 _)
    have hjS : j < S.length :=
      lt_of_lt_of_le hj5 (by rw [List.length_take]; exact Nat.min_le_right 5 _)
    set a := S.get ⟨i, hiS⟩ with hadef
    set b := S.get ⟨j, hjS⟩ with hbdef
    have hgeti : (analyze_text s).most_common_words.get ⟨i, hi⟩ = a := by
      rw [List.get_of_eq htw ⟨i, hi⟩]
      simp [List.get_eq_getElem, List.getElem_take, hadef]
    have hgetj : (analyze_text s).most_common_words.get ⟨j, hj⟩ = b := by
      rw [List.get_of_eq htw ⟨j, hj⟩]
      simp [List.get_eq_getElem, List.getElem_take, hbdef]
    rw [hgeti, hgetj] at heqc ⊢
    have hLnodup : L.Nodup := counterItems_nodup pws
    have hperm : List.Perm S L := List.mergeSort_perm L countGe
    have hSnodup : S.Nodup := hperm.nodup_iff.mpr hLnodup
    have haS : a ∈ S := S.get_mem _ _
    have hbS : b ∈ S := S.get_mem _ _
    have haL : a ∈ L := hperm.subset haS
    have hbL : b ∈ L := hperm.subset hbS
    have hane : a ≠ b := by
      intro he
      have hfin := hSnodup.get_inj_iff.mp he
      have hval := congrArg Fin.val hfin
      simp only [] at hval
      omega
    have hkeys : a.1 ≠ b.1 := by
      intro hk
      exact hane (Prod.ext_iff.mpr ⟨hk, heqc⟩)
    have hka : a.1 ∈ pws := (counterItems_mem pws a haL).1
    have hkb : b.1 ∈ pws := (counterItems_mem pws b hbL).1
    by_contra hcon
    have hidxne : firstIdx a.1 pws ≠ firstIdx b.1 pws := by
      intro he
      exact hkeys (firstIdx_inj hka hkb he)
    have hLpair : List.Sublist [b, a] L := by
      rcases pair_sublist_of_mem hbL haL (Ne.symm hane) with h | h
      · exact h
      · have habo := List.pairwise_iff_forall_sublist.mp
          (counterItems_pairwise_firstIdx pws) h
        omega
    have hgeBA : countGe b a = true := by
      simp only [countGe, decide_eq_true_eq]
      omega
    have hSpair : List.Sublist [b, a] S :=
      List.pair_sublist_mergeSort countGe_trans countGe_total hgeBA hLpair
    have hSidx : firstIdx b S < firstIdx a S :=
      firstIdx_lt_of_pair_sublist hSpair hSnodup
    have hia : firstIdx a S = i := firstIdx_get_nodup S hSnodup i hiS
    have hib : firstIdx b S = j := firstIdx_get_nodup S hSnodup j hjS
    omega
  · intro s
    have hS := List.sorted_mergeSort countGe_trans countGe_total
      (counterItems ((extractWords s).map processWord))
    have htake : List.Sublist (analyze_text s).most_common_words
        ((counterItems ((extractWords s).map processWord)).mergeSort
          countGe) := List.take_sublist 5 _
    exact (List.Pairwise.sublist htake hS).imp fun {p q} h => by
      simpa [countGe] using h
  · rw [analyze_baab]

/-- Witness for C3 at the tie-break test vector: both words have count two
and b, first seen earlier, is listed before a. -/
theorem top_words_order_spec_witness :
    firstIdx ['b'] ((extractWords "b a a b".data).map processWord) <
      firstIdx ['a'] ((extractWords "b a a b".data).map processWord) := by
  have hi : (0 : Nat) <
      (analyze_text "b a a b".data).most_common_words.length := by
    rw [analyze_baab]
    decide
  have hj : (1 : Nat) <
      (analyze_text "b a a b".data).most_common_words.length := by
    rw [analyze_baab]
    decide
  have hmc : (analyze_text "b a a b".data).most_common_words =
      [(['b'], 2), (['a'], 2)] := by
    rw [analyze_baab]
  have hg0 : (analyze_text "b a a b".data).most_common_words.get ⟨0, hi⟩ =
      (['b'], 2) := by
    rw [List.get_of_eq hmc ⟨0, hi⟩]
    rfl
  have hg1 : (analyze_text "b a a b".data).most_common_words.get ⟨1, hj⟩ =
      (['a'], 2) := by
    rw [List.get_of_eq hmc ⟨1, hj⟩]
    rfl
  have happ := top_words_order_spec.1 "b a a b".data 0 1 hi hj (by omega)
    (by rw [hg0, hg1])
  rw [hg0, hg1] at happ
  exact happ

/-- Witness for C7 at the tie-break test vector. -/
theorem top_words_normalized_spec_witness :
    (['b'], 2) ∈ (analyze_text "b a a b".data).most_common_words ∧
    ['b'].map Char.toLower = ['b'] ∧ stripQuotes ['b'] = ['b'] := by
  have hm : (['b'], 2) ∈ (analyze_text "b a a b".data).most_common_words := by
    rw [analyze_baab]
    decide
  exact ⟨hm, top_words_normalized_spec "b a a b".data ['b'] 2 hm⟩

/-- Witness for C4 at an input with sentence terminators but no words. -/
theorem top_words_length_spec_witness :
    (analyze_text "?!".data).words = 0 ∧
    (analyze_text "?!".data).most_common_words = [] :=
  ⟨by decide, (top_words_length_spec "?!".data).2 (by decide)⟩

/-- Witness for C9 at the all-whitespace input from the specification. -/
theorem analyze_total_spec_witness :
    ("   \n\t ".data.all Char.isWhitespace = true) ∧
    analyze_text "   \n\t ".data =
      { words := 0, characters := "   \n\t ".data.length,
        characters_no_spaces := 0, sentences := 0, most_common_words := [] } :=
  ⟨by decide, analyze_total_spec.2 "   \n\t ".data (by decide)⟩
